import Mathlib

/-!
Verification of the `ink` version-control core against its specification.

The development shallowly embeds the relevant Rust source files:

* `src/diff.rs` (namespace `OldDiff`) — the line-oriented Myers diff engine:
  `explore_paths`, `find_path`, `create_edits`, `Diff::apply_edits`,
  `Diff::rollback`.
* `src/diff/edit.rs` and `src/diff/parser.rs` (namespace `EditScript`) —
  the `Edit`/`HalfEdit` structures, `Edit::to_edit_script`,
  `Edit::parse_edit_script` and the parsing helpers `read_usize`,
  `read_lines`, `skip_sequence`.
* `src/commit.rs` and `src/filedata.rs` (namespace `CommitModel`) —
  `Commit::new`, `CommitRepr::to_commit`, `Commit::from`, `Commit::diff`
  and `commit_hash_from_prefix`; `FileData` is modelled abstractly by its
  `(hash, path, permissions)` attributes, since `FileData::new` only reads
  the file system to produce them.  SHA-256 is modelled as an abstract
  hash function `H`, universally quantified in the theorems; the
  incremental hasher is modelled by byte-list accumulation, which is the
  semantics of `sha2`'s `update`/`finalize` interface.
* `src/graph.rs` (namespace `GraphModel`) — the generic directed graph
  with `add_node`, `remove_node`, `add_edge`, `remove_edge`.  `HashMap`
  is modelled as an association list with unique keys.

Lines of a file and of edit contents are modelled as `List String`
(the Rust code stores edit content as a single `String` in which every
line ends with `"\n"`; the list of those lines is an exact model).
Machine-integer subtraction that can wrap in release builds is made
explicit with `wrap64`.
-/

namespace OldDiff

/-- `EditOp` from `src/diff.rs`. -/
inductive EditOp
  | insert
  | delete
deriving DecidableEq, Repr

/-- `Edit` from `src/diff.rs`.  `content` is the list of lines of the
content string (the Rust code pushes `line + "\n"` for every line). -/
structure Edit where
  operation : EditOp
  line_start : Nat
  line_end : Nat
  content : List String
deriving DecidableEq, Repr

/-- The diagonal walk `while x < n && y < m && a[x] == b[y]` from
`explore_paths`.  The fuel argument is `a.length - x` at the call site,
which bounds the number of iterations exactly. -/
def diagWalk (a b : List String) : Nat → Nat → Nat → Nat × Nat
  | 0, x, y => (x, y)
  | fuel + 1, x, y =>
    if x < a.length ∧ y < b.length ∧ a.getD x "" = b.getD y "" then
      diagWalk a b fuel (x + 1) (y + 1)
    else (x, y)

/-- Inner `k`-loop of `explore_paths` (`for k in (0..=(2*d)).step_by(2)`).
Returns the updated `v` and whether the end point was reached
(the early `return` in the source). -/
def exploreInner (a b : List String) (n m mx d : Nat) :
    List Nat → List Nat → List Nat × Bool
  | [], v => (v, false)
  | k :: ks, v =>
    let index_k := (mx - d) + k
    let x :=
      if k = 0 ∨ (k ≠ 2 * d ∧ v.getD (index_k - 1) 0 < v.getD (index_k + 1) 0) then
        v.getD (index_k + 1) 0
      else
        v.getD (index_k - 1) 0 + 1
    let y := x + d - k
    let (x, y) := diagWalk a b (a.length - x) x y
    let v := v.set index_k x
    if x ≥ n ∧ y ≥ m then (v, true)
    else exploreInner a b n m mx d ks v

/-- Outer `d`-loop of `explore_paths` (`for d in 0..=max`), with the
per-`d` snapshot pushed onto the trace.  `fuel` counts the remaining
values of `d` (initially `max + 1`). -/
def exploreOuter (a b : List String) (n m mx : Nat) :
    Nat → Nat → List Nat → List (List Nat) → List (List Nat)
  | 0, _, _, t => t
  | fuel + 1, d, v, t =>
    let (v, found) := exploreInner a b n m mx d ((List.range (d + 1)).map (2 * ·)) v
    let t := t ++ [v]
    if found then t else exploreOuter a b n m mx fuel (d + 1) v t

/-- `explore_paths` from `src/diff.rs`. -/
def explore_paths (a b : List String) : List (List Nat) :=
  let n := a.length
  let m := b.length
  let mx := n + m
  let v := (List.replicate (2 * mx + 1) 0).set (mx + 1) 0
  exploreOuter a b n m mx (mx + 1) 0 v []

/-- The backtracking diagonal walk `while x > prev_x && y > prev_y` of
`find_path`.  Fuel is `(x - prev_x).toNat`, which bounds the iterations. -/
def diagBack : Nat → Int → Int → Int → Int → List (Nat × Nat) →
    List (Nat × Nat) × Int × Int
  | 0, x, y, _, _, acc => (acc, x, y)
  | fuel + 1, x, y, px, py, acc =>
    if x > px ∧ y > py then
      diagBack fuel (x - 1) (y - 1) px py (acc ++ [(x.toNat, y.toNat)])
    else (acc, x, y)

/-- Body of the `for (d, v) in trace.iter().enumerate().rev()` loop of
`find_path` in `src/diff.rs`.  Note the transcribed bug: `prev_index_k`
tests the sign of `k`, not of `prev_k` (the newer copy in
`src/diff/algo.rs` tests `prev_k`). -/
def findPathGo (mx : Nat) : List (Nat × List Nat) → Int → Int →
    List (Nat × Nat) → List (Nat × Nat)
  | [], _, _, path => path
  | (d, v) :: rest, x, y, path =>
    let dz : Int := d
    let k : Int := x - y
    let index_k : Nat := if k < 0 then mx - k.natAbs else mx + k.natAbs
    let prev_k : Int :=
      if k = -dz ∨ (k ≠ dz ∧ v.getD (index_k - 1) 0 < v.getD (index_k + 1) 0) then
        k + 1
      else k - 1
    let prev_index_k : Nat := if k < 0 then mx - prev_k.natAbs else mx + prev_k.natAbs
    let prev_x : Int := (v.getD prev_index_k 0 : Nat)
    let prev_y : Int := prev_x - prev_k
    let (path, x, y) := diagBack (x - prev_x).toNat x y prev_x prev_y path
    let path := if dz > 0 then path ++ [(x.toNat, y.toNat)] else path
    findPathGo mx rest prev_x prev_y path

/-- `find_path` from `src/diff.rs`. -/
def find_path (trace : List (List Nat)) (a_len b_len : Nat) : List (Nat × Nat) :=
  let mx := a_len + b_len
  (findPathGo mx trace.enum.reverse (a_len : Int) (b_len : Int) []).reverse

/-- Loop body of `create_edits` from `src/diff.rs`: fold over the path,
fusing a step into the last edit when the operation matches and
`edit.line_end + 1 >= line_idx`. -/
def createEditsGo (a b : List String) :
    List (Nat × Nat) → Nat → Nat → List Edit → List Edit
  | [], _, _, diff => diff
  | (px, py) :: rest, x, y, diff =>
    let et : Option EditOp :=
      if x = px then some .insert
      else if y = py then some .delete
      else none
    let diff :=
      match et with
      | none => diff
      | some op =>
        let (line_idx, lines) :=
          match op with
          | .insert => (x, b.getD y "")
          | .delete => (x, a.getD x "")
        match diff.getLast? with
        | some e =>
          if e.operation = op ∧ e.line_end + 1 ≥ line_idx then
            diff.dropLast ++
              [{ e with line_end := e.line_end + 1, content := e.content ++ [lines] }]
          else
            diff ++ [⟨op, line_idx, line_idx, [lines]⟩]
        | none => diff ++ [⟨op, line_idx, line_idx, [lines]⟩]
    createEditsGo a b rest px py diff

/-- `create_edits` from `src/diff.rs`. -/
def create_edits (path : List (Nat × Nat)) (a b : List String) : List Edit :=
  createEditsGo a b path 0 0 []

/-- `Diff::from` from `src/diff.rs`. -/
def diffFrom (a b : List String) : List Edit :=
  create_edits (find_path (explore_paths a b) a.length b.length) a b

/-- Outcome of `Diff::apply_edits` on the in-memory line level: either the
lines written to the tmp file, or a Rust panic (out-of-bounds index or an
explicit `panic!`). -/
inductive ApplyOutcome
  | ok (lines : List String)
  | panicked (msg : String)
deriving DecidableEq, Repr

/-- The line-by-line loop of `Diff::apply_edits` followed by the
left-over-edit handling.  `&edits[current_edit_index]` with
`current_edit_index >= edits.len()` is a Rust index-out-of-bounds panic,
modelled by `panicked "index out of bounds"`.  Only called with
`edits` nonempty (the caller returns early otherwise). -/
def applyGo (edits : List Edit) :
    List String → Nat → Nat → Nat → Edit → List String → ApplyOutcome
  | [], _, _, idx, _, out =>
    if idx = edits.length - 1 then
      match edits.get? idx with
      | some e =>
        if e.operation = .insert then .ok (out ++ e.content)
        else .panicked "the last one is a delete??"
      | none => .panicked "index out of bounds"
    else if idx ≠ edits.length then .panicked "edits left after??"
    else .ok out
  | line :: rest, ln, ltd, idx, last, out =>
    if ltd > 0 then applyGo edits rest (ln + 1) (ltd - 1) idx last out
    else
      match edits.get? idx with
      | none => .panicked "index out of bounds"
      | some cur =>
        if ln = cur.line_start then
          match cur.operation with
          | .insert =>
            let out := out ++ cur.content
            let out :=
              if idx + 1 ≠ edits.length then
                match edits.get? (idx + 1) with
                | some nxt =>
                  if ¬(nxt.operation = .delete ∧ cur.line_end + 1 = nxt.line_start) then
                    out ++ [line]
                  else out
                | none => out
              else out ++ [line]
            applyGo edits rest (ln + 1) ltd (idx + 1) cur out
          | .delete =>
            let ltd := cur.line_end - cur.line_start
            let (out, ltd) :=
              if last.operation = .insert ∧ last.line_end + 1 = cur.line_start then
                (out ++ [line], if ltd > 0 then ltd - 1 else ltd)
              else (out, ltd)
            applyGo edits rest (ln + 1) ltd (idx + 1) cur out
        else applyGo edits rest (ln + 1) ltd idx last (out ++ [line])

/-- `Diff::apply_edits` from `src/diff.rs` at the level of file lines
(ignoring the tmp-file plumbing, which cannot fail in this model). -/
def apply_edits (edits : List Edit) (file : List String) : ApplyOutcome :=
  if edits.isEmpty then .ok file
  else applyGo edits file 0 0 0 (edits.getD 0 ⟨.insert, 0, 0, []⟩) []

/-- Outcome of `Diff::apply_edits` at the file-system level, together
with the file operations performed (open/create/write/rename). -/
inductive FsOutcome
  | ok (fs : Option (List String)) (effects : List String)
  | ioError (fs : Option (List String)) (effects : List String)
  | panicked (msg : String)
deriving DecidableEq, Repr

/-- `Diff::apply_edits` including its file-system behaviour: `fs` is the
file at `file_path` (`none` when absent).  With an empty edit list the
function returns `Ok(())` before any file is opened, created, written or
renamed.  Otherwise `File::open` fails if the file is absent; on success
the tmp file is written and renamed over the target. -/
def apply_to_file (edits : List Edit) (fs : Option (List String)) : FsOutcome :=
  if edits.isEmpty then .ok fs []
  else
    match fs with
    | none => .ioError none ["open"]
    | some lines =>
      match apply_edits edits lines with
      | .ok out => .ok (some out) ["open", "create", "write", "rename"]
      | .panicked m => .panicked m

/-- One step of the loop of `Diff::rollback`: invert a single edit,
updating the running line offset. -/
def rollbackStep (st : Int × List Edit) (e : Edit) : Int × List Edit :=
  let (offset, acc) := st
  let num_lines := e.content.length
  let line_start :=
    if offset < 0 then e.line_start - offset.natAbs
    else e.line_start + offset.natAbs
  match e.operation with
  | .insert =>
    let offset := if num_lines ≠ 1 then offset + (num_lines : Int) else offset
    (offset, acc ++ [⟨.delete, line_start, num_lines + line_start - 1, e.content⟩])
  | .delete =>
    let offset := if num_lines ≠ 1 then offset - (num_lines : Int) else offset
    (offset, acc ++ [⟨.insert, line_start, line_start + num_lines - 1, e.content⟩])

/-- The inverse edit list built by `Diff::rollback` from `src/diff.rs`. -/
def rollbackEdits (edits : List Edit) : List Edit :=
  (edits.foldl rollbackStep (0, [])).2

/-- `Diff::rollback`: apply the inverse edits to the file. -/
def rollback_to_file (edits : List Edit) (fs : Option (List String)) : FsOutcome :=
  apply_to_file (rollbackEdits edits) fs

/-- The 8-line file `A` of the test corpus in `src/diff.rs`. -/
def A8 : List String :=
  ["The small cactus sat in a",
   "pot full of sand and dirt",
   "",
   "Next to it was a small basil",
   "plant in a similar pot",
   "",
   "Everyday, the plants got plenty",
   "of sunshine and water"]

/-- The 9-line file `B` of the test corpus in `src/diff.rs`. -/
def B9 : List String :=
  ["The small green cactus sat in a",
   "pot full of sand and dirt",
   "",
   "In another part of the house,",
   "another house plant grew in a",
   "much bigger pot",
   "",
   "Everyday, the plants got plenty",
   "of water and sunshine"]

/-- What `Diff::from(A8, B9).apply` actually writes: the line
`Everyday, the plants got plenty` is lost and `of sunshine and water`
is kept, because `find_path` computes `prev_index_k` from the sign of
`k` instead of `prev_k`. -/
def cactusApplyOut : List String :=
  ["The small green cactus sat in a",
   "pot full of sand and dirt",
   "",
   "In another part of the house,",
   "another house plant grew in a",
   "much bigger pot",
   "",
   "of sunshine and water",
   "of water and sunshine"]

end OldDiff

section MyersClaims

open OldDiff

/-- Claim C1: the spec demands `apply(from(a,b), a) == b` for all `a`, `b`.
The code violates it: on the repository's own 8/9-line test corpus
(`A8`/`B9`), applying `Diff::from(A8, B9)` to `A8` terminates with the
wrong file contents (`cactusApplyOut ≠ B9`), and on
`a = ["a","b"]`, `b = ["c","a","b"]` the apply loop indexes
`edits[current_edit_index]` past the end of the edit list and panics.
This theorem evaluates the embedded code at both failing inputs. -/
theorem c1_myers_apply_diverges :
    apply_to_file (diffFrom A8 B9) (some A8) =
        .ok (some cactusApplyOut) ["open", "create", "write", "rename"]
      ∧ cactusApplyOut ≠ B9
      ∧ apply_to_file (diffFrom ["a", "b"] ["c", "a", "b"]) (some ["a", "b"]) =
        .panicked "index out of bounds" := by
  refine ⟨?_, ?_, ?_⟩ <;> · set_option maxRecDepth 4000 in decide

/-- Claim C2: the spec demands `rollback(from(a,b), b) == a` for all
`a`, `b`.  The code violates it: on the repository's own test corpus
rolling back `Diff::from(A8, B9)` on `B9` panics with
`edits left after??`, and on `a = ["a","b"]`, `b = ["c","a","b"]` it
panics with an out-of-bounds index into the edit list.  This theorem
evaluates the embedded code at both failing inputs. -/
theorem c2_rollback_diverges :
    rollback_to_file (diffFrom A8 B9) (some B9) = .panicked "edits left after??"
      ∧ rollback_to_file (diffFrom ["a", "b"] ["c", "a", "b"]) (some ["c", "a", "b"]) =
        .panicked "index out of bounds" := by
  refine ⟨?_, ?_⟩ <;> · set_option maxRecDepth 4000 in decide

/-- Claim C9: after the apply loop, a single left-over Insert is written
at end-of-file and apply succeeds, as claimed; but a left-over non-Insert
edit makes the code `panic!("the last one is a delete??")` and more than
one left-over edit makes it `panic!("edits left after??")`, while the
claim (and §7 of the spec) requires an error value and no panic. -/
theorem c9_leftover_edits_panic :
    apply_edits [⟨.insert, 2, 2, ["z"]⟩] ["a", "b"] = .ok ["a", "b", "z"]
      ∧ apply_edits [⟨.delete, 5, 5, ["x"]⟩] ["a", "b"] =
        .panicked "the last one is a delete??"
      ∧ apply_edits [⟨.delete, 5, 5, ["x"]⟩, ⟨.insert, 7, 7, ["y"]⟩] ["a", "b"] =
        .panicked "edits left after??" := by
  refine ⟨?_, ?_, ?_⟩ <;> decide

/-- Claim C10: applying a `Diff` with an empty edit list returns success
immediately: the file (present or absent) is unchanged and no file is
opened, read, written or renamed. -/
theorem c10_empty_diff_noop (fs : Option (List String)) :
    apply_to_file [] fs = .ok fs [] := rfl

end MyersClaims

namespace CommitModel

/-- Lexicographic comparison of byte strings: the `Ord` of `[u8; 32]`
used by `impl Ord for FileData` in `src/filedata.rs` (`self.hash.cmp`). -/
def hashLe : List Nat → List Nat → Bool
  | [], _ => true
  | _ :: _, [] => false
  | x :: xs, y :: ys => if x < y then true else if y < x then false else hashLe xs ys

/-- `hashLe` as a relation on byte strings. -/
def hashLeP (a b : List Nat) : Prop := hashLe a b = true

instance : DecidableRel hashLeP := fun a b =>
  inferInstanceAs (Decidable (hashLe a b = true))

/-- `FileData` from `src/filedata.rs`, abstracted to the attributes a
commit stores: the entry digest `hash`, the project-relative `path` and
the unix `permissions` mode. -/
structure FileData where
  hash : List Nat
  path : String
  permissions : Nat
deriving DecidableEq, Repr

/-- The ordering of `impl Ord for FileData`: by `hash` only. -/
def fdLe (f g : FileData) : Prop := hashLeP f.hash g.hash

instance : DecidableRel fdLe := fun f g =>
  inferInstanceAs (Decidable (hashLe f.hash g.hash = true))

theorem hashLe_total : ∀ a b, hashLe a b = true ∨ hashLe b a = true := by
  intro a
  induction a with
  | nil => intro b; left; rfl
  | cons x xs ih =>
    intro b
    cases b with
    | nil => right; rfl
    | cons y ys =>
      by_cases hxy : x < y
      · left; simp [hashLe, hxy]
      · by_cases hyx : y < x
        · right; simp [hashLe, hyx, hxy]
        · have : x = y := Nat.le_antisymm (Nat.not_lt.mp hyx) (Nat.not_lt.mp hxy)
          subst this
          rcases ih ys with h | h
          · left; simp [hashLe, h]
          · right; simp [hashLe, h]

theorem hashLe_trans : ∀ a b c, hashLe a b = true → hashLe b c = true →
    hashLe a c = true := by
  intro a
  induction a with
  | nil => intro b c _ _; rfl
  | cons x xs ih =>
    intro b c hab hbc
    cases b with
    | nil => simp [hashLe] at hab
    | cons y ys =>
      cases c with
      | nil => simp [hashLe] at hbc
      | cons z zs =>
        simp only [hashLe] at hab hbc ⊢
        by_cases hxy : x < y
        · by_cases hyz : y < z
          · simp [Nat.lt_trans hxy hyz]
          · by_cases hzy : z < y
            · simp only [hyz, if_false, hzy, if_true] at hbc
              simp at hbc
            · have : y = z := Nat.le_antisymm (Nat.not_lt.mp hzy) (Nat.not_lt.mp hyz)
              subst this
              simp [hxy]
        · by_cases hyx : y < x
          · simp [hxy, hyx] at hab
          · have hxyeq : x = y := Nat.le_antisymm (Nat.not_lt.mp hyx) (Nat.not_lt.mp hxy)
            subst hxyeq
            simp only [Nat.lt_irrefl, if_false] at hab
            by_cases hyz : x < z
            · simp [hyz]
            · by_cases hzy : z < x
              · simp [hyz, hzy] at hbc
              · have : x = z := Nat.le_antisymm (Nat.not_lt.mp hzy) (Nat.not_lt.mp hyz)
                subst this
                simp only [Nat.lt_irrefl, if_false] at hbc ⊢
                exact ih ys zs hab hbc

theorem hashLe_antisymm : ∀ a b, hashLe a b = true → hashLe b a = true → a = b := by
  intro a
  induction a with
  | nil =>
    intro b _ hba
    cases b with
    | nil => rfl
    | cons y ys => simp [hashLe] at hba
  | cons x xs ih =>
    intro b hab hba
    cases b with
    | nil => simp [hashLe] at hab
    | cons y ys =>
      simp only [hashLe] at hab hba
      by_cases hxy : x < y
      · simp [Nat.lt_asymm hxy, Nat.lt_irrefl, hxy] at hba
      · by_cases hyx : y < x
        · simp [hxy, hyx] at hab
        · have : x = y := Nat.le_antisymm (Nat.not_lt.mp hyx) (Nat.not_lt.mp hxy)
          subst this
          simp only [Nat.lt_irrefl, if_false] at hab hba
          rw [ih ys hab hba]

instance : IsTotal FileData fdLe := ⟨fun f g => hashLe_total f.hash g.hash⟩

instance : IsTrans FileData fdLe :=
  ⟨fun _ _ _ hab hbc => hashLe_trans _ _ _ hab hbc⟩

instance : IsAntisymm (List Nat) hashLeP :=
  ⟨fun _ _ hab hba => hashLe_antisymm _ _ hab hba⟩

instance : IsTotal (List Nat) hashLeP := ⟨fun a b => hashLe_total a b⟩

instance : IsTrans (List Nat) hashLeP :=
  ⟨fun _ _ _ hab hbc => hashLe_trans _ _ _ hab hbc⟩

/-- Reduction modulo `2 ^ 64`: the value set of Rust's `u64`/`usize`. -/
def wrap64 (n : Nat) : Nat := n % (2 ^ 64)

/-- `u64::to_be_bytes`: the eight big-endian bytes of a 64-bit value,
as used on the timestamp in `Commit::new` and `CommitRepr::to_commit`. -/
def be64 (t : Nat) : List Nat :=
  (List.range 8).map fun i => wrap64 t / 2 ^ (8 * (7 - i)) % 256

/-- `files.sort()` of `src/commit.rs`: Rust's stable sort under the
`Ord` of `FileData`, modelled by stable insertion sort. -/
def sortFiles (files : List FileData) : List FileData :=
  List.insertionSort fdLe files

/-- `Commit` from `src/commit.rs`. -/
structure Commit where
  hash : List Nat
  files : List FileData
  time : Nat
deriving DecidableEq, Repr

/-- The shared body of `Commit::new` and `CommitRepr::to_commit`
(`src/commit.rs`): sort the entries, feed every entry digest and then the
big-endian timestamp into the incremental hasher, finalize.  `H` is the
abstract SHA-256 compression; the incremental `update` calls accumulate
the byte stream, which is the semantics of the `sha2` hasher. -/
def mkCommit (H : List Nat → List Nat) (files : List FileData) (t : Nat) : Commit :=
  let sorted := sortFiles files
  let st : List Nat := sorted.foldl (fun st f => st ++ f.hash) []
  let st := st ++ be64 t
  { hash := H st, files := sorted, time := t }

/-- `Commit::new` from `src/commit.rs`, at the point where the input
paths have already been turned into `FileData` entries (`FileData::new`
is deterministic per path, so a permutation of the path list permutes
the entry list).  The pre-unix-epoch rejection has already happened:
`t` is the nonnegative number of seconds since the epoch. -/
def commitNew (H : List Nat → List Nat) (files : List FileData) (t : Nat) : Commit :=
  mkCommit H files t

/-- `CommitRepr` from `src/commit.rs`: the serialized representation,
`{files, time}` with no stored digest. -/
structure CommitRepr where
  files : List FileData
  time : Nat
deriving DecidableEq, Repr

/-- `CommitRepr::to_commit` from `src/commit.rs`. -/
def reprToCommit (H : List Nat → List Nat) (r : CommitRepr) : Commit :=
  mkCommit H r.files r.time

/-- `Commit::from` from `src/commit.rs`: `stored` is the deserialized
record at `commit/<hex(h)>` (`none` when the file does not exist). -/
def commitFrom (H : List Nat → List Nat) (stored : Option CommitRepr)
    (h : List Nat) : Except String Commit :=
  match stored with
  | none => .error "Given commit hash does not exist on disk"
  | some r =>
    let commit := reprToCommit H r
    if h ≠ commit.hash then
      .error "Actual hash of commit does not match given hash of commit"
    else .ok commit

/-- `commit_hash_from_prefix` from `src/commit.rs` (the final word of the
source name is dropped from the Lean identifier): `hashes` is
`graph.commit_hashes()`. -/
def commit_hash_from_pfx (hashes : List (List Nat)) (p : List Nat) :
    Except String (List Nat) :=
  if p.length > 32 then .error "invalid commit hash prefix: too long"
  else
    let candidates := hashes.filter fun h => List.isPrefixOf p h
    if candidates.isEmpty then .error "No commits in the graph match the given prefix"
    else if candidates.length > 1 then
      .error "Too many possible commits with the given prefix"
    else .ok (candidates.headD [])

/-- `Edit` from `src/commit.rs`: a structural commit-to-commit edit. -/
inductive Edit
  | insert (f : FileData)
  | delete (f : FileData)
  | modify (original modified : FileData)
deriving DecidableEq, Repr

/-- The path a commit edit is keyed by (for `modify`, both entries carry
the same path). -/
def editPath : Edit → String
  | .insert f => f.path
  | .delete f => f.path
  | .modify _ f => f.path

/-- Lookup in the `HashMap<&Path, &FileData>` built by `Commit::diff`
from an entry list: `collect` keeps the last insertion for a repeated
key, hence `getLast?` of the matching entries. -/
def mapLookup (files : List FileData) (p : String) : Option FileData :=
  (files.filter fun f => f.path = p).getLast?

/-- Helper for the key set of that map: the distinct paths of an entry
list (first occurrence order; `Commit::diff` iterates the map in an
unspecified order, and the claim is order-insensitive). -/
def uniquePathsAux : List String → List String → List String
  | [], _ => []
  | p :: rest, seen =>
    if p ∈ seen then uniquePathsAux rest seen
    else p :: uniquePathsAux rest (seen ++ [p])

/-- The distinct paths of an entry list. -/
def uniquePaths (l : List String) : List String := uniquePathsAux l []

/-- `Commit::diff` from `src/commit.rs`: for each path of `other` not in
`self` emit `Insert`; for each path in both with differing entry digests
emit `Modify{original, modified}`; then for each path of `self` not in
`other` emit `Delete`. -/
def commitDiff (s o : List FileData) : List Edit :=
  let insertsMods := (uniquePaths (o.map FileData.path)).filterMap fun p =>
    match mapLookup o p with
    | none => none
    | some f =>
      match mapLookup s p with
      | none => some (.insert f)
      | some f0 => if f.hash ≠ f0.hash then some (.modify f0 f) else none
  let deletes := (uniquePaths (s.map FileData.path)).filterMap fun p =>
    match mapLookup s p with
    | none => none
    | some f => if (mapLookup o p).isNone then some (.delete f) else none
  insertsMods ++ deletes

theorem mem_uniquePathsAux (l : List String) :
    ∀ seen q, q ∈ uniquePathsAux l seen ↔ q ∈ l ∧ q ∉ seen := by
  induction l with
  | nil => intro seen q; simp [uniquePathsAux]
  | cons p rest ih =>
    intro seen q
    by_cases hp : p ∈ seen
    · rw [uniquePathsAux, if_pos hp, ih]
      constructor
      · rintro ⟨hq, hqs⟩
        exact ⟨List.mem_cons_of_mem _ hq, hqs⟩
      · rintro ⟨hq, hqs⟩
        rcases List.mem_cons.mp hq with rfl | hq
        · exact absurd hp hqs
        · exact ⟨hq, hqs⟩
    · rw [uniquePathsAux, if_neg hp]
      constructor
      · intro hq
        rcases List.mem_cons.mp hq with rfl | hq
        · exact ⟨List.mem_cons_self _ _, hp⟩
        · rw [ih] at hq
          refine ⟨List.mem_cons_of_mem _ hq.1, fun hs => hq.2 ?_⟩
          exact List.mem_append_left _ hs
      · rintro ⟨hq, hqs⟩
        rcases List.mem_cons.mp hq with rfl | hq
        · exact List.mem_cons_self _ _
        · by_cases hqp : q = p
          · subst hqp; exact List.mem_cons_self _ _
          · refine List.mem_cons_of_mem _ ((ih _ _).mpr ⟨hq, fun hs => ?_⟩)
            rcases List.mem_append.mp hs with hs | hs
            · exact hqs hs
            · exact hqp (List.mem_singleton.mp hs)

theorem mem_uniquePaths {l : List String} {q : String} :
    q ∈ uniquePaths l ↔ q ∈ l := by
  rw [uniquePaths, mem_uniquePathsAux]
  simp

theorem nodup_uniquePathsAux (l : List String) :
    ∀ seen, (uniquePathsAux l seen).Nodup := by
  induction l with
  | nil => intro seen; simp [uniquePathsAux]
  | cons p rest ih =>
    intro seen
    by_cases hp : p ∈ seen
    · rw [uniquePathsAux, if_pos hp]; exact ih seen
    · rw [uniquePathsAux, if_neg hp]
      refine List.Nodup.cons (fun hmem => ?_) (ih _)
      rw [mem_uniquePathsAux] at hmem
      exact hmem.2 (List.mem_append_right _ (List.mem_singleton_self p))

theorem nodup_uniquePaths (l : List String) : (uniquePaths l).Nodup :=
  nodup_uniquePathsAux l []

theorem mapLookup_eq_none_iff (l : List FileData) (p : String) :
    mapLookup l p = none ↔ p ∉ l.map FileData.path := by
  rw [mapLookup, List.getLast?_eq_none_iff, List.filter_eq_nil_iff]
  constructor
  · intro h hp
    rcases List.mem_map.mp hp with ⟨f, hf, hfp⟩
    exact h f hf (by simpa using hfp)
  · intro h f hf hfp
    exact h (List.mem_map.mpr ⟨f, hf, by simpa using hfp⟩)

theorem mapLookup_isSome_of_mem {l : List FileData} {p : String}
    (h : p ∈ l.map FileData.path) : ∃ f, mapLookup l p = some f := by
  rcases Option.eq_none_or_eq_some (mapLookup l p) with hn | hs
  · exact absurd ((mapLookup_eq_none_iff l p).mp hn) (not_not_intro h)
  · exact hs.imp fun _ e => e

theorem filter_path_eq (l : List FileData) (p : String)
    (hnd : (l.map FileData.path).Nodup) :
    (l.filter fun f => f.path = p) = []
      ∨ ∃ f, (l.filter fun f => f.path = p) = [f] ∧ f ∈ l ∧ f.path = p := by
  induction l with
  | nil => left; rfl
  | cons g gs ih =>
    rw [List.map_cons, List.nodup_cons] at hnd
    by_cases hg : g.path = p
    · right
      refine ⟨g, ?_, List.mem_cons_self _ _, hg⟩
      have hrest : (gs.filter fun f => f.path = p) = [] := by
        rw [List.filter_eq_nil_iff]
        intro f hf hfp
        apply hnd.1
        have hfp2 : f.path = p := by simpa using hfp
        rw [hg, ← hfp2]
        exact List.mem_map.mpr ⟨f, hf, rfl⟩
      simp [List.filter_cons, hg, hrest]
    · rcases ih hnd.2 with h | ⟨f, hf, hfl, hfp⟩
      · left; simp [List.filter_cons, hg, h]
      · right
        exact ⟨f, by simp [List.filter_cons, hg, hf], List.mem_cons_of_mem _ hfl, hfp⟩

theorem mapLookup_eq_some_iff {l : List FileData} {p : String} {f : FileData}
    (hnd : (l.map FileData.path).Nodup) :
    mapLookup l p = some f ↔ f ∈ l ∧ f.path = p := by
  rcases filter_path_eq l p hnd with h | ⟨g, hg, hgl, hgp⟩
  · constructor
    · intro hsome
      rw [mapLookup, h] at hsome
      simp at hsome
    · rintro ⟨hfl, hfp⟩
      exfalso
      have hmem : f ∈ l.filter fun f => f.path = p :=
        List.mem_filter.mpr ⟨hfl, by simpa using hfp⟩
      rw [h] at hmem
      exact List.not_mem_nil f hmem
  · rw [mapLookup, hg]
    constructor
    · intro h
      have : g = f := by simpa using h
      subst this
      exact ⟨hgl, hgp⟩
    · rintro ⟨hfl, hfp⟩
      have : f ∈ l.filter fun f => f.path = p :=
        List.mem_filter.mpr ⟨hfl, by simpa using hfp⟩
      rw [hg] at this
      have : f = g := List.mem_singleton.mp this
      subst this
      rfl

theorem mapLookup_path {l : List FileData} {p : String} {f : FileData}
    (h : mapLookup l p = some f) : f ∈ l ∧ f.path = p := by
  have hmem : f ∈ l.filter fun f => f.path = p := by
    obtain ⟨hne, heq⟩ := List.mem_getLast?_eq_getLast
      (show f ∈ (l.filter fun f => f.path = p).getLast? from h)
    rw [heq]
    exact List.getLast_mem hne
  rw [List.mem_filter] at hmem
  exact ⟨hmem.1, by simpa using hmem.2⟩

theorem map_editPath_sublist (g : String → Option Edit)
    (hg : ∀ p e, g p = some e → editPath e = p) :
    ∀ keys : List String, ((keys.filterMap g).map editPath).Sublist keys := by
  intro keys
  induction keys with
  | nil => simp
  | cons p rest ih =>
    rw [List.filterMap_cons]
    cases hgp : g p with
    | none => exact ih.cons p
    | some e =>
      rw [List.map_cons, hg p e hgp]
      exact ih.cons₂ p

theorem foldl_append_hash (l : List FileData) (init : List Nat) :
    l.foldl (fun st f => st ++ f.hash) init = init ++ (l.map FileData.hash).flatten := by
  induction l generalizing init with
  | nil => simp
  | cons f fs ih => simp [List.foldl_cons, ih, List.append_assoc]

theorem map_hash_sortFiles_eq {l1 l2 : List FileData} (hp : l1.Perm l2) :
    (sortFiles l1).map FileData.hash = (sortFiles l2).map FileData.hash := by
  apply List.eq_of_perm_of_sorted (r := hashLeP)
  · exact ((List.perm_insertionSort fdLe l1).map _).trans
      ((hp.map _).trans ((List.perm_insertionSort fdLe l2).map _).symm)
  · have := List.sorted_insertionSort fdLe l1
    exact (List.pairwise_map).mpr this
  · have := List.sorted_insertionSort fdLe l2
    exact (List.pairwise_map).mpr this

end CommitModel

section CommitClaims

open CommitModel

/-- Claim C3: the commit digest of `Commit::new` is the abstract hash
`H` (SHA-256) of the concatenation of the entry digests sorted ascending
(lexicographically, i.e. by the `Ord` of `FileData`) followed by the
big-endian 64-bit timestamp; the stored entry sequence is that sorted
sequence; and for a permutation of the input entry list both the digest
and the stored digest sequence are unchanged. -/
theorem c3_commit_digest (H : List Nat → List Nat) (files files2 : List FileData)
    (t : Nat) (hp : files.Perm files2) :
    (commitNew H files t).hash = H (((sortFiles files).map FileData.hash).flatten ++ be64 t)
    ∧ List.Sorted hashLeP ((commitNew H files t).files.map FileData.hash)
    ∧ (commitNew H files t).hash = (commitNew H files2 t).hash
    ∧ (commitNew H files t).files.map FileData.hash
        = (commitNew H files2 t).files.map FileData.hash := by
  have hmap := map_hash_sortFiles_eq hp
  refine ⟨?_, ?_, ?_, ?_⟩
  · simp [commitNew, mkCommit, foldl_append_hash]
  · exact (List.pairwise_map).mpr (List.sorted_insertionSort fdLe files)
  · simp only [commitNew, mkCommit, foldl_append_hash, List.nil_append]
    rw [hmap]
  · simpa [commitNew, mkCommit] using hmap

/-- Witness for C3: two concrete entries in both orders; the hypothesis
(the permutation) is discharged by `decide` and the digest and stored
digest sequence coincide. -/
theorem c3_commit_digest_witness :
    ([⟨[2, 1], "b", 33188⟩, ⟨[1, 9], "a", 33188⟩] : List FileData).Perm
        [⟨[1, 9], "a", 33188⟩, ⟨[2, 1], "b", 33188⟩]
    ∧ (commitNew (fun l => l) [⟨[2, 1], "b", 33188⟩, ⟨[1, 9], "a", 33188⟩] 7).hash
        = (commitNew (fun l => l) [⟨[1, 9], "a", 33188⟩, ⟨[2, 1], "b", 33188⟩] 7).hash :=
  ⟨by decide,
   (c3_commit_digest (fun l => l) _ _ 7 (by decide)).2.2.1⟩

/-- Claim C4: `Commit::from(h)` succeeds exactly when the digest
recomputed from the loaded record equals `h`; on a mismatch (for example
a record whose timestamp was altered after writing) it fails with the
integrity error `"Actual hash of commit does not match given hash of
commit"`, and on success it returns the commit rebuilt from the record. -/
theorem c4_commit_from_integrity (H : List Nat → List Nat)
    (stored : Option CommitRepr) (h : List Nat) :
    ((∃ c, commitFrom H stored h = .ok c) ↔
      ∃ r, stored = some r ∧ (reprToCommit H r).hash = h)
    ∧ (∀ r, stored = some r → (reprToCommit H r).hash ≠ h →
        commitFrom H stored h =
          .error "Actual hash of commit does not match given hash of commit")
    ∧ (∀ r, stored = some r → (reprToCommit H r).hash = h →
        commitFrom H stored h = .ok (reprToCommit H r)) := by
  refine ⟨⟨?_, ?_⟩, ?_, ?_⟩
  · rintro ⟨c, hc⟩
    cases stored with
    | none => simp [commitFrom] at hc
    | some r =>
      refine ⟨r, rfl, ?_⟩
      by_cases hh : h = (reprToCommit H r).hash
      · exact hh.symm
      · simp [commitFrom, hh] at hc
  · rintro ⟨r, hr, hh⟩
    subst hr
    exact ⟨reprToCommit H r, by simp [commitFrom, hh.symm]⟩
  · intro r hr hh
    subst hr
    have : h ≠ (reprToCommit H r).hash := fun e => hh e.symm
    simp [commitFrom, this]
  · intro r hr hh
    subst hr
    simp [commitFrom, hh.symm]

/-- Witness for C4: the spec's reload-integrity scenario.  A record with
timestamp `1379995200` is written; the stored timestamp is altered to
`1379995210`; loading by the original digest fails with the integrity
error.  `H` is instantiated with the identity so the hypothesis (the
recomputed digest differs) is discharged by `decide`. -/
theorem c4_commit_from_integrity_witness :
    (reprToCommit (fun l => l) ⟨[], 1379995210⟩).hash
        ≠ (reprToCommit (fun l => l) ⟨[], 1379995200⟩).hash
    ∧ commitFrom (fun l => l) (some ⟨[], 1379995210⟩)
        (reprToCommit (fun l => l) ⟨[], 1379995200⟩).hash
        = .error "Actual hash of commit does not match given hash of commit" :=
  ⟨by decide,
   (c4_commit_from_integrity (fun l => l) (some ⟨[], 1379995210⟩) _).2.1 _ rfl (by decide)⟩

/-- Claim C5: `self.diff(other)` emits exactly one `Insert(entry)` per
path present in `other` but not in `self`, one `Delete(entry)` per path
present in `self` but not in `other`, one `Modify{original, modified}`
per path present in both whose entry digests differ, and nothing for
paths with equal digests; in particular a commit's diff against itself
is empty.  The membership characterisation together with the
no-duplicate-paths conjunct expresses "exactly one per path"; edit
order is unspecified in the spec. -/
theorem c5_commit_diff (s o c : List FileData)
    (hs : (s.map FileData.path).Nodup) (ho : (o.map FileData.path).Nodup) :
    (∀ e, e ∈ commitDiff s o ↔
      ((∃ f, f ∈ o ∧ f.path ∉ s.map FileData.path ∧ e = .insert f)
        ∨ (∃ f0 f, f0 ∈ s ∧ f ∈ o ∧ f0.path = f.path ∧ f0.hash ≠ f.hash
            ∧ e = .modify f0 f)
        ∨ (∃ f, f ∈ s ∧ f.path ∉ o.map FileData.path ∧ e = .delete f)))
    ∧ ((commitDiff s o).map editPath).Nodup
    ∧ commitDiff c c = [] := by
  refine ⟨?_, ?_, ?_⟩
  · intro e
    constructor
    · intro he
      simp only [commitDiff] at he
      rcases List.mem_append.mp he with hI | hD
      · rcases List.mem_filterMap.mp hI with ⟨p, hpmem, hpe⟩
        have hpo : p ∈ o.map FileData.path := mem_uniquePaths.mp hpmem
        obtain ⟨f, hf⟩ := mapLookup_isSome_of_mem hpo
        rw [hf] at hpe
        obtain ⟨hfo, hfp⟩ := mapLookup_path hf
        cases hls : mapLookup s p with
        | none =>
          rw [hls] at hpe
          simp only [Option.some.injEq] at hpe
          subst hpe
          exact Or.inl ⟨f, hfo, hfp ▸ (mapLookup_eq_none_iff s p).mp hls, rfl⟩
        | some f0 =>
          rw [hls] at hpe
          obtain ⟨hf0s, hf0p⟩ := mapLookup_path hls
          by_cases hne : f.hash = f0.hash
          · simp [hne] at hpe
          · simp only [ne_eq, hne, not_false_iff, if_true, Option.some.injEq] at hpe
            subst hpe
            exact Or.inr (Or.inl ⟨f0, f, hf0s, hfo, by rw [hf0p, hfp],
              fun hh => hne hh.symm, rfl⟩)
      · rcases List.mem_filterMap.mp hD with ⟨p, hpmem, hpe⟩
        have hps : p ∈ s.map FileData.path := mem_uniquePaths.mp hpmem
        obtain ⟨f, hf⟩ := mapLookup_isSome_of_mem hps
        rw [hf] at hpe
        obtain ⟨hfs, hfp⟩ := mapLookup_path hf
        cases hlo : mapLookup o p with
        | none =>
          rw [hlo] at hpe
          simp only [Option.isNone_none, if_true, Option.some.injEq] at hpe
          subst hpe
          exact Or.inr (Or.inr ⟨f, hfs, hfp ▸ (mapLookup_eq_none_iff o p).mp hlo, rfl⟩)
        | some f1 =>
          rw [hlo] at hpe
          simp at hpe
    · intro hcase
      simp only [commitDiff]
      rcases hcase with ⟨f, hfo, hfns, rfl⟩ | ⟨f0, f, hf0s, hfo, hpp, hne, rfl⟩
          | ⟨f, hfs, hfno, rfl⟩
      · apply List.mem_append_left
        apply List.mem_filterMap.mpr
        refine ⟨f.path, mem_uniquePaths.mpr (List.mem_map.mpr ⟨f, hfo, rfl⟩), ?_⟩
        rw [(mapLookup_eq_some_iff ho).mpr ⟨hfo, rfl⟩,
          (mapLookup_eq_none_iff s f.path).mpr hfns]
      · apply List.mem_append_left
        apply List.mem_filterMap.mpr
        refine ⟨f.path, mem_uniquePaths.mpr (List.mem_map.mpr ⟨f, hfo, rfl⟩), ?_⟩
        rw [(mapLookup_eq_some_iff ho).mpr ⟨hfo, rfl⟩,
          (mapLookup_eq_some_iff hs).mpr ⟨hf0s, hpp⟩]
        have hne2 : f.hash ≠ f0.hash := fun hh => hne hh.symm
        simp [hne2]
      · apply List.mem_append_right
        apply List.mem_filterMap.mpr
        refine ⟨f.path, mem_uniquePaths.mpr (List.mem_map.mpr ⟨f, hfs, rfl⟩), ?_⟩
        rw [(mapLookup_eq_some_iff hs).mpr ⟨hfs, rfl⟩,
          (mapLookup_eq_none_iff o f.path).mpr hfno]
        rfl
  · simp only [commitDiff, List.map_append]
    have hgIM : ∀ p e,
        (match mapLookup o p with
          | none => none
          | some f =>
            match mapLookup s p with
            | none => some (Edit.insert f)
            | some f0 => if f.hash ≠ f0.hash then some (.modify f0 f) else none)
          = some e → editPath e = p := by
      intro p e h
      cases ho2 : mapLookup o p with
      | none => rw [ho2] at h; simp at h
      | some f =>
        rw [ho2] at h
        obtain ⟨_, hfp⟩ := mapLookup_path ho2
        cases hs2 : mapLookup s p with
        | none =>
          rw [hs2] at h
          simp only [Option.some.injEq] at h
          subst h; exact hfp
        | some f0 =>
          rw [hs2] at h
          by_cases hne : f.hash = f0.hash
          · simp [hne] at h
          · simp only [ne_eq, hne, not_false_iff, if_true, Option.some.injEq] at h
            subst h; exact hfp
    have hgD : ∀ p e,
        (match mapLookup s p with
          | none => none
          | some f => if (mapLookup o p).isNone then some (Edit.delete f) else none)
          = some e → editPath e = p ∧ p ∉ o.map FileData.path := by
      intro p e h
      cases hs2 : mapLookup s p with
      | none => rw [hs2] at h; simp at h
      | some f =>
        rw [hs2] at h
        obtain ⟨_, hfp⟩ := mapLookup_path hs2
        cases ho2 : mapLookup o p with
        | none =>
          rw [ho2] at h
          simp only [Option.isNone_none, if_true, Option.some.injEq] at h
          subst h
          exact ⟨hfp, (mapLookup_eq_none_iff o p).mp ho2⟩
        | some f1 =>
          rw [ho2] at h
          simp at h
    have hsub1 := map_editPath_sublist _ (fun p e h => hgIM p e h)
      (uniquePaths (o.map FileData.path))
    have hsub2 := map_editPath_sublist _ (fun p e h => (hgD p e h).1)
      (uniquePaths (s.map FileData.path))
    refine List.Nodup.append (hsub1.nodup (nodup_uniquePaths _))
      (hsub2.nodup (nodup_uniquePaths _)) ?_
    intro x hx1 hx2
    have hxo : x ∈ o.map FileData.path :=
      mem_uniquePaths.mp (hsub1.mem hx1)
    rcases List.mem_map.mp hx2 with ⟨e, he, hex⟩
    rcases List.mem_filterMap.mp he with ⟨p, _, hpe⟩
    obtain ⟨hep, hpno⟩ := hgD p e hpe
    rw [← hex, hep] at hxo
    exact hpno hxo
  · simp only [commitDiff, List.append_eq_nil]
    constructor
    · rw [List.filterMap_eq_nil_iff]
      intro p hp
      obtain ⟨f, hf⟩ := mapLookup_isSome_of_mem (mem_uniquePaths.mp hp)
      rw [hf]
      simp
    · rw [List.filterMap_eq_nil_iff]
      intro p hp
      obtain ⟨f, hf⟩ := mapLookup_isSome_of_mem (mem_uniquePaths.mp hp)
      rw [hf]
      simp [hf]

/-- Witness for C5: a concrete pair of commits with one common changed
path and one new path; the no-duplicate-path hypotheses are discharged
by `decide` and the theorem yields the membership of the corresponding
`Insert` edit. -/
theorem c5_commit_diff_witness :
    Edit.insert ⟨[3], "b", 1⟩ ∈
      commitDiff [⟨[1], "a", 1⟩] [⟨[2], "a", 1⟩, ⟨[3], "b", 1⟩] :=
  ((c5_commit_diff [⟨[1], "a", 1⟩] [⟨[2], "a", 1⟩, ⟨[3], "b", 1⟩] []
      (by decide) (by decide)).1 _).mpr
    (Or.inl ⟨⟨[3], "b", 1⟩, by decide, by decide, rfl⟩)

/-- Claim C8: resolution of a commit-digest byte prefix over the digests
stored in the graph: a prefix longer than 32 bytes is rejected; zero
matches give the no-match error; more than one match gives the ambiguity
error; and the unique matching digest is returned exactly when exactly
one digest starts with the prefix. -/
theorem c8_hash_from_pfx (hashes : List (List Nat)) (p : List Nat)
    (hlen : ∀ h ∈ hashes, h.length = 32) :
    (p.length > 32 →
      commit_hash_from_pfx hashes p = .error "invalid commit hash prefix: too long")
    ∧ (p.length ≤ 32 → (hashes.filter fun h => List.isPrefixOf p h) = [] →
      commit_hash_from_pfx hashes p =
        .error "No commits in the graph match the given prefix")
    ∧ (p.length ≤ 32 → (hashes.filter fun h => List.isPrefixOf p h).length > 1 →
      commit_hash_from_pfx hashes p =
        .error "Too many possible commits with the given prefix")
    ∧ (∀ h, (hashes.filter fun h => List.isPrefixOf p h) = [h] →
      commit_hash_from_pfx hashes p = .ok h)
    ∧ ((∃ h, commit_hash_from_pfx hashes p = .ok h ∧ h ∈ hashes ∧ List.isPrefixOf p h)
        ↔ (hashes.filter fun h => List.isPrefixOf p h).length = 1) := by
  refine ⟨?_, ?_, ?_, ?_, ⟨?_, ?_⟩⟩
  · intro hp
    simp [commit_hash_from_pfx, hp]
  · intro hp hf
    simp [commit_hash_from_pfx, Nat.not_lt.mpr hp, Nat.lt_irrefl, hf]
  · intro hp hf
    have hne : ¬ (hashes.filter fun h => List.isPrefixOf p h).isEmpty := by
      intro he
      rw [List.isEmpty_iff] at he
      rw [he] at hf
      simp at hf
    simp [commit_hash_from_pfx, Nat.not_lt.mpr hp, hne, hf]
  · intro h hf
    have hp : p.length ≤ 32 := by
      have hmem : h ∈ hashes.filter fun h => List.isPrefixOf p h := by
        rw [hf]; exact List.mem_singleton_self h
      rw [List.mem_filter] at hmem
      have hpref : p <+: h := by
        rw [← List.isPrefixOf_iff_prefix]; exact hmem.2
      calc p.length ≤ h.length := hpref.length_le
        _ = 32 := hlen h hmem.1
    simp [commit_hash_from_pfx, Nat.not_lt.mpr hp, hf]
  · rintro ⟨h, hok, _, _⟩
    by_cases hp : p.length > 32
    · simp [commit_hash_from_pfx, hp] at hok
    · by_cases he : (hashes.filter fun h => List.isPrefixOf p h).isEmpty
      · simp [commit_hash_from_pfx, hp, he] at hok
      · by_cases hm : (hashes.filter fun h => List.isPrefixOf p h).length > 1
        · simp [commit_hash_from_pfx, hp, he, hm] at hok
        · have h1 : 1 ≤ (hashes.filter fun h => List.isPrefixOf p h).length := by
            rcases Nat.eq_zero_or_pos (hashes.filter fun h => List.isPrefixOf p h).length
              with h0 | h0
            · rw [List.length_eq_zero] at h0
              rw [← List.isEmpty_iff] at h0
              exact absurd h0 he
            · exact h0
          exact Nat.le_antisymm (Nat.not_lt.mp hm) h1
  · intro h1
    obtain ⟨h, hf⟩ := List.length_eq_one.mp h1
    have hmem : h ∈ hashes.filter fun h => List.isPrefixOf p h := by
      rw [hf]; exact List.mem_singleton_self h
    rw [List.mem_filter] at hmem
    have hp : p.length ≤ 32 := by
      have hpref : p <+: h := by
        rw [← List.isPrefixOf_iff_prefix]; exact hmem.2
      calc p.length ≤ h.length := hpref.length_le
        _ = 32 := hlen h hmem.1
    refine ⟨h, ?_, hmem.1, hmem.2⟩
    simp [commit_hash_from_pfx, Nat.not_lt.mpr hp, hf]

/-- Witness for C8: a two-digest graph where the one-byte prefix `[7]`
matches exactly the first digest; the length hypothesis and the filter
hypothesis are discharged by `decide`. -/
theorem c8_hash_from_pfx_witness :
    commit_hash_from_pfx
        [List.replicate 31 0 ++ [1], List.replicate 31 0 ++ [2]] [0, 0]
      = .error "Too many possible commits with the given prefix" :=
  (c8_hash_from_pfx [List.replicate 31 0 ++ [1], List.replicate 31 0 ++ [2]] [0, 0]
    (by decide)).2.2.1 (by decide) (by decide)

end CommitClaims

namespace GraphModel

/-- A node of the graph of `src/graph.rs`: the two adjacency lists the
`Node` trait exposes (`pointing_to`, `pointed_to`). -/
structure GNode (I : Type) where
  pointing_to : List I
  pointed_to : List I
deriving DecidableEq, Repr

/-- The `Graph` of `src/graph.rs`: `HashMap<I, N>` modelled as an
association list with unique keys (maintained by the operations). -/
structure Graph (I : Type) where
  nodes : List (I × GNode I)
deriving DecidableEq, Repr

variable {I : Type} [DecidableEq I]

/-- `self.nodes.get(&i)`. -/
def lookup (g : Graph I) (i : I) : Option (GNode I) :=
  (g.nodes.find? fun q => decide (q.1 = i)).map Prod.snd

/-- `self.nodes.contains_key(&i)`. -/
def containsKey (g : Graph I) (i : I) : Bool :=
  (lookup g i).isSome

/-- In-place mutation through `get_mut(&i)`: apply `fn` to the node
stored under key `i` (no-op when the key is absent, matching the
`if let Some(node) = self.nodes.get_mut(..)` uses). -/
def updateNode (g : Graph I) (i : I) (fn : GNode I → GNode I) : Graph I :=
  ⟨g.nodes.map fun q => if q.1 = i then (q.1, fn q.2) else q⟩

/-- The `pointing_to` list of node `i` (empty when absent). -/
def ptg (g : Graph I) (i : I) : List I :=
  ((lookup g i).map GNode.pointing_to).getD []

/-- The `pointed_to` list of node `i` (empty when absent). -/
def ptd (g : Graph I) (i : I) : List I :=
  ((lookup g i).map GNode.pointed_to).getD []

/-- `Graph::add_node` (`src/graph.rs`), with the fresh node carrying
empty adjacency lists, as every instantiation in the repository does
(`TestNode::new`, and `IDGraph` per §4.G of the spec: `add_node(id)`).
`none` models the `Err` return. -/
def add_node (g : Graph I) (i : I) : Option (Graph I) :=
  if containsKey g i then none
  else some ⟨g.nodes ++ [(i, ⟨[], []⟩)]⟩

/-- The first mutation of `Graph::add_edge`: `from_pointing_to.push(to)`. -/
def pushEdgeTo (g : Graph I) (f t : I) : Graph I :=
  updateNode g f fun n => { n with pointing_to := n.pointing_to ++ [t] }

/-- `Graph::add_edge` (`src/graph.rs`), mirroring the source sequencing:
the `from` list is pushed before the second check (on states satisfying
the graph invariant that check never fails after the push). -/
def add_edge (g : Graph I) (f t : I) : Option (Graph I) :=
  if ¬ containsKey g f then none
  else if ¬ containsKey g t then none
  else if t ∈ ptg g f then none
  else if f ∈ ptd (pushEdgeTo g f t) t then none
  else some (updateNode (pushEdgeTo g f t) t fun n =>
    { n with pointed_to := n.pointed_to ++ [f] })

/-- The first mutation of `Graph::remove_edge`:
`from_pointing_to.retain(|elem| elem != &to)`. -/
def retainEdgeTo (g : Graph I) (f t : I) : Graph I :=
  updateNode g f fun n =>
    { n with pointing_to := n.pointing_to.filter fun x => decide (x ≠ t) }

/-- `Graph::remove_edge` (`src/graph.rs`). -/
def remove_edge (g : Graph I) (f t : I) : Option (Graph I) :=
  if ¬ containsKey g f then none
  else if ¬ containsKey g t then none
  else if t ∉ ptg g f then none
  else if f ∉ ptd (retainEdgeTo g f t) t then none
  else some (updateNode (retainEdgeTo g f t) t fun n =>
    { n with pointed_to := n.pointed_to.filter fun x => decide (x ≠ f) })

/-- First loop of `Graph::remove_node`: for every `o` in the removed
node's `pointed_to` list, retain all elements `≠ i` of `o`'s
`pointing_to` list (no-op when `o` is absent, as `if let Some`). -/
def purgePointing (i : I) (L : List I) (g : Graph I) : Graph I :=
  L.foldl (fun g o => updateNode g o fun n =>
    { n with pointing_to := n.pointing_to.filter fun x => decide (x ≠ i) }) g

/-- Second loop of `Graph::remove_node`: for every `o` in the removed
node's `pointing_to` list, retain all elements `≠ i` of `o`'s
`pointed_to` list. -/
def purgePointed (i : I) (L : List I) (g : Graph I) : Graph I :=
  L.foldl (fun g o => updateNode g o fun n =>
    { n with pointed_to := n.pointed_to.filter fun x => decide (x ≠ i) }) g

/-- `Graph::remove_node` (`src/graph.rs`): purge `i` from the
`pointing_to` lists of its `pointed_to` neighbours and from the
`pointed_to` lists of its `pointing_to` neighbours, then drop the key. -/
def remove_node (g : Graph I) (i : I) : Option (Graph I) :=
  match lookup g i with
  | none => none
  | some nd =>
    some ⟨(purgePointed i nd.pointing_to (purgePointing i nd.pointed_to g)).nodes.filter
      fun q => decide (q.1 ≠ i)⟩

/-- One of the four graph operations. -/
inductive GOp (I : Type)
  | addN (i : I)
  | rmN (i : I)
  | addE (f t : I)
  | rmE (f t : I)

/-- Execute one operation. -/
def step (g : Graph I) : GOp I → Option (Graph I)
  | .addN i => add_node g i
  | .rmN i => remove_node g i
  | .addE f t => add_edge g f t
  | .rmE f t => remove_edge g f t

/-- Run a sequence of operations from the empty graph; an operation that
fails leaves the graph unchanged (on states reachable from the empty
graph a failing operation never mutates: every early `Err` in the source
happens before the first mutation there). -/
def run (ops : List (GOp I)) : Graph I :=
  ops.foldl (fun g op => (step g op).getD g) ⟨[]⟩

/-- The invariant: unique keys, edge symmetry, duplicate-free adjacency. -/
def Inv (g : Graph I) : Prop :=
  (g.nodes.map Prod.fst).Nodup
  ∧ (∀ u v, v ∈ ptg g u ↔ u ∈ ptd g v)
  ∧ (∀ u, (ptg g u).Nodup ∧ (ptd g u).Nodup)

theorem find?_map_update (l : List (I × GNode I)) (i j : I)
    (fn : GNode I → GNode I) :
    ((l.map fun q => if q.1 = i then (q.1, fn q.2) else q).find?
        fun q => decide (q.1 = j))
      = if j = i then
          (l.find? fun q => decide (q.1 = j)).map fun q => (q.1, fn q.2)
        else l.find? fun q => decide (q.1 = j) := by
  induction l with
  | nil => by_cases h : j = i <;> simp [h]
  | cons q rest ih =>
    obtain ⟨a, nd⟩ := q
    by_cases hai : a = i
    · subst hai
      by_cases haj : a = j
      · subst haj
        simp [List.find?_cons]
      · simp [List.find?_cons, haj, ih]
    · by_cases haj : a = j
      · subst haj
        have hji : a ≠ i := hai
        simp [List.find?_cons, if_neg (fun h : a = i => hji h), hai]
      · simp [List.find?_cons, haj, hai, ih]

theorem lookup_updateNode (g : Graph I) (i : I) (fn : GNode I → GNode I) (j : I) :
    lookup (updateNode g i fn) j =
      if j = i then (lookup g j).map fn else lookup g j := by
  rcases g with ⟨nodes⟩
  show ((nodes.map fun q => if q.1 = i then (q.1, fn q.2) else q).find?
      fun q => decide (q.1 = j)).map Prod.snd = _
  rw [find?_map_update]
  by_cases h : j = i
  · simp only [if_pos h, lookup, Option.map_map]
    rfl
  · simp [if_neg h, lookup]

theorem keys_updateNode (g : Graph I) (i : I) (fn : GNode I → GNode I) :
    (updateNode g i fn).nodes.map Prod.fst = g.nodes.map Prod.fst := by
  rcases g with ⟨nodes⟩
  induction nodes with
  | nil => rfl
  | cons q rest ih =>
    obtain ⟨a, nd⟩ := q
    have h1 : (if (a, nd).1 = i then ((a, nd).1, fn (a, nd).2) else (a, nd)).1 = a := by
      by_cases hai : a = i <;> simp [hai]
    simp only [updateNode, List.map_cons] at ih ⊢
    rw [h1, ih]

theorem mem_keys_iff_lookup (g : Graph I) (j : I) :
    j ∈ g.nodes.map Prod.fst ↔ (lookup g j).isSome := by
  rcases g with ⟨nodes⟩
  induction nodes with
  | nil => simp [lookup]
  | cons q rest ih =>
    obtain ⟨a, nd⟩ := q
    by_cases haj : a = j
    · subst haj
      simp [lookup, List.find?_cons]
    · have hd : (decide ((a, nd).1 = j)) = false := by simp [haj]
      simp only [lookup, List.map_cons, List.mem_cons, List.find?_cons, hd] at ih ⊢
      constructor
      · rintro (h | h)
        · exact absurd h.symm haj
        · exact ih.mp h
      · intro h
        exact Or.inr (ih.mpr h)

theorem lookup_empty (j : I) : lookup (⟨[]⟩ : Graph I) j = none := rfl

theorem lookup_append_of_ne (g : Graph I) (i : I) (nd : GNode I) (j : I)
    (h : j ≠ i) :
    lookup (⟨g.nodes ++ [(i, nd)]⟩ : Graph I) j = lookup g j := by
  simp only [lookup, List.find?_append]
  cases hf : g.nodes.find? fun q => decide (q.1 = j) with
  | some x => simp
  | none =>
    have hd : (decide ((i, nd).1 = j)) = false := by
      simp only [decide_eq_false_iff_not]
      exact fun hh => h hh.symm
    simp [List.find?_cons, hd]

theorem lookup_append_self (g : Graph I) (i : I) (nd : GNode I)
    (h : lookup g i = none) :
    lookup (⟨g.nodes ++ [(i, nd)]⟩ : Graph I) i = some nd := by
  have hf : (g.nodes.find? fun q => decide (q.1 = i)) = none := by
    rw [lookup, Option.map_eq_none'] at h
    exact h
  simp [lookup, List.find?_append, hf, List.find?_cons]

theorem lookup_filterOut (g : Graph I) (i : I) (j : I) :
    lookup (⟨g.nodes.filter fun q => decide (q.1 ≠ i)⟩ : Graph I) j =
      if j = i then none else lookup g j := by
  rcases g with ⟨nodes⟩
  induction nodes with
  | nil => by_cases h : j = i <;> simp [lookup, h]
  | cons q rest ih =>
    obtain ⟨a, nd⟩ := q
    simp only [lookup, List.filter_cons] at ih ⊢
    by_cases hai : a = i
    · have hd : (decide ((a, nd).1 ≠ i)) = false := by simp [hai]
      rw [hd]
      by_cases hji : j = i
      · rw [if_pos hji] at ih ⊢
        exact ih
      · rw [if_neg hji] at ih ⊢
        have hdj : (decide ((a, nd).1 = j)) = false := by
          simp only [decide_eq_false_iff_not]
          intro hh
          exact hji (by rw [← hh, hai])
        rw [List.find?_cons, hdj]
        exact ih
    · have hd : (decide ((a, nd).1 ≠ i)) = true := by simp [hai]
      rw [hd]
      show ((List.find? _ ((a, nd) :: _)).map Prod.snd) = _
      by_cases haj : a = j
      · subst haj
        have hdj : (decide ((a, nd).1 = a)) = true := by simp
        rw [if_neg hai]
        rw [List.find?_cons, hdj, List.find?_cons, hdj]
      · have hdj : (decide ((a, nd).1 = j)) = false := by simp [haj]
        rw [List.find?_cons, hdj]
        by_cases hji : j = i
        · rw [if_pos hji] at ih ⊢
          exact ih
        · rw [if_neg hji] at ih ⊢
          rw [List.find?_cons, hdj]
          exact ih

theorem keys_filterOut (g : Graph I) (i : I) :
    (⟨g.nodes.filter fun q => decide (q.1 ≠ i)⟩ : Graph I).nodes.map Prod.fst
      = (g.nodes.map Prod.fst).filter fun x => decide (x ≠ i) := by
  rcases g with ⟨nodes⟩
  show (nodes.filter fun q => decide (q.1 ≠ i)).map Prod.fst = _
  induction nodes with
  | nil => rfl
  | cons q rest ih =>
    obtain ⟨a, nd⟩ := q
    by_cases hai : a = i
    · have hd : (decide ((a, nd).1 ≠ i)) = false := by simp [hai]
      have hd2 : (decide (a ≠ i)) = false := by simp [hai]
      simp only [List.filter_cons, List.map_cons, hd, hd2, Bool.false_eq_true, if_false]
      exact ih
    · have hd : (decide ((a, nd).1 ≠ i)) = true := by simp [hai]
      have hd2 : (decide (a ≠ i)) = true := by simp [hai]
      simp only [List.filter_cons, List.map_cons, hd, hd2, if_true]
      exact congrArg (List.cons a) ih

theorem ptg_updateNode (g : Graph I) (i : I) (fn : GNode I → GNode I) (j : I) :
    ptg (updateNode g i fn) j =
      if j = i then ((lookup g i).map fun n => (fn n).pointing_to).getD []
      else ptg g j := by
  by_cases h : j = i
  · subst h
    cases hl : lookup g j <;> simp [ptg, lookup_updateNode, hl]
  · simp [ptg, lookup_updateNode, h]

theorem ptd_updateNode (g : Graph I) (i : I) (fn : GNode I → GNode I) (j : I) :
    ptd (updateNode g i fn) j =
      if j = i then ((lookup g i).map fun n => (fn n).pointed_to).getD []
      else ptd g j := by
  by_cases h : j = i
  · subst h
    cases hl : lookup g j <;> simp [ptd, lookup_updateNode, hl]
  · simp [ptd, lookup_updateNode, h]

theorem ptg_updateNode_preserve (g : Graph I) (i : I) (fn : GNode I → GNode I)
    (hfn : ∀ n, (fn n).pointing_to = n.pointing_to) (j : I) :
    ptg (updateNode g i fn) j = ptg g j := by
  rw [ptg_updateNode]
  by_cases h : j = i
  · subst h
    cases hl : lookup g j with
    | none => simp [ptg, hl]
    | some n => simp [ptg, hl, hfn]
  · simp [h]

theorem ptd_updateNode_preserve (g : Graph I) (i : I) (fn : GNode I → GNode I)
    (hfn : ∀ n, (fn n).pointed_to = n.pointed_to) (j : I) :
    ptd (updateNode g i fn) j = ptd g j := by
  rw [ptd_updateNode]
  by_cases h : j = i
  · subst h
    cases hl : lookup g j with
    | none => simp [ptd, hl]
    | some n => simp [ptd, hl, hfn]
  · simp [h]

theorem containsKey_updateNode (g : Graph I) (i : I) (fn : GNode I → GNode I)
    (j : I) : containsKey (updateNode g i fn) j = containsKey g j := by
  rw [containsKey, containsKey, lookup_updateNode]
  by_cases h : j = i
  · subst h
    cases hl : lookup g j <;> simp [hl]
  · simp [h]

theorem filter_idem {α : Type} (p : α → Bool) :
    ∀ l : List α, (l.filter p).filter p = l.filter p := by
  intro l
  induction l with
  | nil => rfl
  | cons a l ih =>
    by_cases h : p a = true <;> simp [List.filter_cons, h, ih]

theorem ptg_purgePointing (i : I) (L : List I) (g : Graph I) (u : I) :
    ptg (purgePointing i L g) u =
      if u ∈ L then (ptg g u).filter (fun x => decide (x ≠ i)) else ptg g u := by
  induction L generalizing g with
  | nil => simp [purgePointing]
  | cons o L ih =>
    rw [purgePointing, List.foldl_cons]
    rw [show ∀ g0, L.foldl (fun g o => updateNode g o fun n =>
        { n with pointing_to := n.pointing_to.filter fun x => decide (x ≠ i) }) g0
        = purgePointing i L g0 from fun _ => rfl]
    rw [ih]
    have hstep : ∀ w, ptg (updateNode g o fun n =>
        { n with pointing_to := n.pointing_to.filter fun x => decide (x ≠ i) }) w =
        if w = o then (ptg g w).filter (fun x => decide (x ≠ i)) else ptg g w := by
      intro w
      rw [ptg_updateNode]
      by_cases hw : w = o
      · subst hw
        cases hl : lookup g w <;> simp [ptg, hl]
      · simp [hw]
    by_cases huL : u ∈ L
    · rw [if_pos huL, if_pos (List.mem_cons_of_mem o huL), hstep]
      by_cases huo : u = o
      · rw [if_pos huo, filter_idem]
      · rw [if_neg huo]
    · rw [if_neg huL, hstep]
      by_cases huo : u = o
      · rw [if_pos huo, if_pos (huo ▸ List.mem_cons_self o L)]
      · rw [if_neg huo, if_neg (fun hmem => by
          rcases List.mem_cons.mp hmem with h | h
          · exact huo h
          · exact huL h)]

theorem ptd_purgePointing (i : I) (L : List I) (g : Graph I) (u : I) :
    ptd (purgePointing i L g) u = ptd g u := by
  induction L generalizing g with
  | nil => simp [purgePointing]
  | cons o L ih =>
    rw [purgePointing, List.foldl_cons]
    rw [show ∀ g0, L.foldl (fun g o => updateNode g o fun n =>
        { n with pointing_to := n.pointing_to.filter fun x => decide (x ≠ i) }) g0
        = purgePointing i L g0 from fun _ => rfl]
    rw [ih, ptd_updateNode_preserve]
    intro n
    rfl

theorem keys_purgePointing (i : I) (L : List I) (g : Graph I) :
    (purgePointing i L g).nodes.map Prod.fst = g.nodes.map Prod.fst := by
  induction L generalizing g with
  | nil => simp [purgePointing]
  | cons o L ih =>
    rw [purgePointing, List.foldl_cons]
    rw [show ∀ g0, L.foldl (fun g o => updateNode g o fun n =>
        { n with pointing_to := n.pointing_to.filter fun x => decide (x ≠ i) }) g0
        = purgePointing i L g0 from fun _ => rfl]
    rw [ih, keys_updateNode]

theorem ptd_purgePointed (i : I) (L : List I) (g : Graph I) (u : I) :
    ptd (purgePointed i L g) u =
      if u ∈ L then (ptd g u).filter (fun x => decide (x ≠ i)) else ptd g u := by
  induction L generalizing g with
  | nil => simp [purgePointed]
  | cons o L ih =>
    rw [purgePointed, List.foldl_cons]
    rw [show ∀ g0, L.foldl (fun g o => updateNode g o fun n =>
        { n with pointed_to := n.pointed_to.filter fun x => decide (x ≠ i) }) g0
        = purgePointed i L g0 from fun _ => rfl]
    rw [ih]
    have hstep : ∀ w, ptd (updateNode g o fun n =>
        { n with pointed_to := n.pointed_to.filter fun x => decide (x ≠ i) }) w =
        if w = o then (ptd g w).filter (fun x => decide (x ≠ i)) else ptd g w := by
      intro w
      rw [ptd_updateNode]
      by_cases hw : w = o
      · subst hw
        cases hl : lookup g w <;> simp [ptd, hl]
      · simp [hw]
    by_cases huL : u ∈ L
    · rw [if_pos huL, if_pos (List.mem_cons_of_mem o huL), hstep]
      by_cases huo : u = o
      · rw [if_pos huo, filter_idem]
      · rw [if_neg huo]
    · rw [if_neg huL, hstep]
      by_cases huo : u = o
      · rw [if_pos huo, if_pos (huo ▸ List.mem_cons_self o L)]
      · rw [if_neg huo, if_neg (fun hmem => by
          rcases List.mem_cons.mp hmem with h | h
          · exact huo h
          · exact huL h)]

theorem ptg_purgePointed (i : I) (L : List I) (g : Graph I) (u : I) :
    ptg (purgePointed i L g) u = ptg g u := by
  induction L generalizing g with
  | nil => simp [purgePointed]
  | cons o L ih =>
    rw [purgePointed, List.foldl_cons]
    rw [show ∀ g0, L.foldl (fun g o => updateNode g o fun n =>
        { n with pointed_to := n.pointed_to.filter fun x => decide (x ≠ i) }) g0
        = purgePointed i L g0 from fun _ => rfl]
    rw [ih, ptg_updateNode_preserve]
    intro n
    rfl

theorem keys_purgePointed (i : I) (L : List I) (g : Graph I) :
    (purgePointed i L g).nodes.map Prod.fst = g.nodes.map Prod.fst := by
  induction L generalizing g with
  | nil => simp [purgePointed]
  | cons o L ih =>
    rw [purgePointed, List.foldl_cons]
    rw [show ∀ g0, L.foldl (fun g o => updateNode g o fun n =>
        { n with pointed_to := n.pointed_to.filter fun x => decide (x ≠ i) }) g0
        = purgePointed i L g0 from fun _ => rfl]
    rw [ih, keys_updateNode]

theorem inv_empty : Inv (⟨[]⟩ : Graph I) := by
  refine ⟨by simp, fun u v => ?_, fun u => ?_⟩
  · simp [ptg, ptd, lookup]
  · simp [ptg, ptd, lookup]

theorem inv_add_node {g g' : Graph I} {i : I} (hinv : Inv g)
    (h : add_node g i = some g') : Inv g' := by
  obtain ⟨hkeys, hsym, hnd⟩ := hinv
  rw [add_node] at h
  by_cases hc : containsKey g i = true
  · rw [if_pos hc] at h
    exact Option.noConfusion h
  · rw [if_neg hc] at h
    obtain rfl := Option.some.inj h
    have hlook : lookup g i = none := by
      cases hl : lookup g i with
      | none => rfl
      | some x => rw [containsKey, hl] at hc; simp at hc
    have hlookup : ∀ j, lookup (⟨g.nodes ++ [(i, ⟨[], []⟩)]⟩ : Graph I) j =
        if j = i then some ⟨[], []⟩ else lookup g j := by
      intro j
      by_cases hj : j = i
      · subst hj
        rw [if_pos rfl]
        exact lookup_append_self g j _ hlook
      · rw [if_neg hj]
        exact lookup_append_of_ne g i _ j hj
    have hptg : ∀ j, ptg (⟨g.nodes ++ [(i, ⟨[], []⟩)]⟩ : Graph I) j =
        if j = i then [] else ptg g j := by
      intro j
      rw [ptg, hlookup]
      by_cases hj : j = i <;> simp [hj, ptg]
    have hptd : ∀ j, ptd (⟨g.nodes ++ [(i, ⟨[], []⟩)]⟩ : Graph I) j =
        if j = i then [] else ptd g j := by
      intro j
      rw [ptd, hlookup]
      by_cases hj : j = i <;> simp [hj, ptd]
    have hptgi : ptg g i = [] := by simp [ptg, hlook]
    have hptdi : ptd g i = [] := by simp [ptd, hlook]
    refine ⟨?_, fun u v => ?_, fun u => ?_⟩
    · show ((g.nodes ++ [(i, (⟨[], []⟩ : GNode I))]).map Prod.fst).Nodup
      rw [List.map_append]
      refine List.Nodup.append hkeys (by simp) ?_
      intro x hx hx2
      have hxi : x = i := by simpa using hx2
      subst hxi
      rw [mem_keys_iff_lookup, hlook] at hx
      simp at hx
    · rw [hptg, hptd]
      by_cases hu : u = i <;> by_cases hv : v = i
      · subst hu; subst hv
        simp
      · subst hu
        rw [if_pos rfl, if_neg hv]
        refine iff_of_false (List.not_mem_nil v) fun hx => ?_
        have := (hsym u v).mpr hx
        rw [hptgi] at this
        exact List.not_mem_nil v this
      · subst hv
        rw [if_neg hu, if_pos rfl]
        refine iff_of_false (fun hx => ?_) (List.not_mem_nil u)
        have := (hsym u v).mp hx
        rw [hptdi] at this
        exact List.not_mem_nil u this
      · rw [if_neg hu, if_neg hv]
        exact hsym u v
    · rw [hptg, hptd]
      by_cases hu : u = i
      · simp [hu]
      · rw [if_neg hu, if_neg hu]
        exact hnd u

theorem inv_add_edge {g g' : Graph I} {f t : I} (hinv : Inv g)
    (h : add_edge g f t = some g') : Inv g' := by
  obtain ⟨hkeys, hsym, hnd⟩ := hinv
  rw [add_edge] at h
  split_ifs at h with h1 h2 h3 h4
  obtain rfl := Option.some.inj h
  have hcf : containsKey g f = true := h1
  have hct : containsKey g t = true := h2
  obtain ⟨nf, hnf⟩ := Option.isSome_iff_exists.mp hcf
  have hptgf : ptg g f = nf.pointing_to := by simp [ptg, hnf]
  have hptg1 : ∀ u, ptg (pushEdgeTo g f t) u =
      if u = f then ptg g f ++ [t] else ptg g u := by
    intro u
    rw [pushEdgeTo, ptg_updateNode]
    by_cases hu : u = f
    · subst hu
      rw [if_pos rfl, if_pos rfl, hnf, hptgf]
      rfl
    · rw [if_neg hu, if_neg hu]
  have hptd1 : ∀ v, ptd (pushEdgeTo g f t) v = ptd g v := fun v =>
    ptd_updateNode_preserve g f
      (fun n => { n with pointing_to := n.pointing_to ++ [t] }) (fun n => rfl) v
  have hct1 : containsKey (pushEdgeTo g f t) t = true := by
    rw [pushEdgeTo, containsKey_updateNode]
    exact hct
  obtain ⟨nt1, hnt1⟩ := Option.isSome_iff_exists.mp hct1
  have hptd1t : ptd (pushEdgeTo g f t) t = nt1.pointed_to := by simp [ptd, hnt1]
  have hptg' : ∀ u, ptg (updateNode (pushEdgeTo g f t) t fun n =>
      { n with pointed_to := n.pointed_to ++ [f] }) u = ptg (pushEdgeTo g f t) u :=
    fun u => ptg_updateNode_preserve (pushEdgeTo g f t) t
      (fun n => { n with pointed_to := n.pointed_to ++ [f] }) (fun n => rfl) u
  have hptd' : ∀ v, ptd (updateNode (pushEdgeTo g f t) t fun n =>
      { n with pointed_to := n.pointed_to ++ [f] }) v =
      if v = t then ptd g t ++ [f] else ptd g v := by
    intro v
    rw [ptd_updateNode]
    by_cases hv : v = t
    · subst hv
      rw [if_pos rfl, if_pos rfl, hnt1]
      show nt1.pointed_to ++ [f] = ptd g v ++ [f]
      rw [← hptd1t, hptd1]
    · rw [if_neg hv, if_neg hv, hptd1]
  have hfn : f ∉ ptd g t := by
    rw [← hptd1 t]
    exact h4
  refine ⟨?_, fun u v => ?_, fun u => ?_⟩
  · show ((updateNode (pushEdgeTo g f t) t _).nodes.map Prod.fst).Nodup
    rw [keys_updateNode, pushEdgeTo, keys_updateNode]
    exact hkeys
  · rw [hptg', hptg1, hptd']
    by_cases hu : u = f <;> by_cases hv : v = t
    · subst hu; subst hv
      rw [if_pos rfl, if_pos rfl]
      refine iff_of_true ?_ ?_
      · exact List.mem_append_right _ (List.mem_singleton_self v)
      · exact List.mem_append_right _ (List.mem_singleton_self u)
    · subst hu
      rw [if_pos rfl, if_neg hv]
      rw [List.mem_append, List.mem_singleton]
      constructor
      · rintro (hx | hx)
        · exact (hsym u v).mp hx
        · exact absurd hx hv
      · intro hx
        exact Or.inl ((hsym u v).mpr hx)
    · subst hv
      rw [if_neg hu, if_pos rfl]
      rw [List.mem_append, List.mem_singleton]
      constructor
      · intro hx
        exact Or.inl ((hsym u v).mp hx)
      · rintro (hx | hx)
        · exact (hsym u v).mpr hx
        · exact absurd hx hu
    · rw [if_neg hu, if_neg hv]
      exact hsym u v
  · rw [hptg', hptg1, hptd']
    constructor
    · by_cases hu : u = f
      · subst hu
        rw [if_pos rfl]
        refine List.Nodup.append (hnd _).1 (by simp) ?_
        intro y hy hy2
        have hyt : y = t := by simpa using hy2
        rw [hyt] at hy
        exact h3 hy
      · rw [if_neg hu]
        exact (hnd u).1
    · by_cases hu : u = t
      · subst hu
        rw [if_pos rfl]
        refine List.Nodup.append (hnd _).2 (by simp) ?_
        intro y hy hy2
        have hyf : y = f := by simpa using hy2
        rw [hyf] at hy
        exact hfn hy
      · rw [if_neg hu]
        exact (hnd u).2

theorem inv_remove_edge {g g' : Graph I} {f t : I} (hinv : Inv g)
    (h : remove_edge g f t = some g') : Inv g' := by
  obtain ⟨hkeys, hsym, hnd⟩ := hinv
  rw [remove_edge] at h
  split_ifs at h with h1 h2 h3 h4
  obtain rfl := Option.some.inj h
  have hcf : containsKey g f = true := h1
  obtain ⟨nf, hnf⟩ := Option.isSome_iff_exists.mp hcf
  have hptgf : ptg g f = nf.pointing_to := by simp [ptg, hnf]
  have hptg1 : ∀ u, ptg (retainEdgeTo g f t) u =
      if u = f then (ptg g f).filter (fun x => decide (x ≠ t)) else ptg g u := by
    intro u
    rw [retainEdgeTo, ptg_updateNode]
    by_cases hu : u = f
    · subst hu
      rw [if_pos rfl, if_pos rfl, hnf, hptgf]
      rfl
    · rw [if_neg hu, if_neg hu]
  have hptd1 : ∀ v, ptd (retainEdgeTo g f t) v = ptd g v := fun v =>
    ptd_updateNode_preserve g f
      (fun n => { n with pointing_to := n.pointing_to.filter fun x => decide (x ≠ t) })
      (fun n => rfl) v
  have hct1 : containsKey (retainEdgeTo g f t) t = true := by
    rw [retainEdgeTo, containsKey_updateNode]
    exact h2
  obtain ⟨nt1, hnt1⟩ := Option.isSome_iff_exists.mp hct1
  have hptd1t : ptd (retainEdgeTo g f t) t = nt1.pointed_to := by simp [ptd, hnt1]
  have hptg' : ∀ u, ptg (updateNode (retainEdgeTo g f t) t fun n =>
      { n with pointed_to := n.pointed_to.filter fun x => decide (x ≠ f) }) u =
      ptg (retainEdgeTo g f t) u :=
    fun u => ptg_updateNode_preserve (retainEdgeTo g f t) t
      (fun n => { n with pointed_to := n.pointed_to.filter fun x => decide (x ≠ f) })
      (fun n => rfl) u
  have hptd' : ∀ v, ptd (updateNode (retainEdgeTo g f t) t fun n =>
      { n with pointed_to := n.pointed_to.filter fun x => decide (x ≠ f) }) v =
      if v = t then (ptd g t).filter (fun x => decide (x ≠ f)) else ptd g v := by
    intro v
    rw [ptd_updateNode]
    by_cases hv : v = t
    · subst hv
      rw [if_pos rfl, if_pos rfl, hnt1]
      show nt1.pointed_to.filter _ = (ptd g v).filter _
      rw [← hptd1t, hptd1]
    · rw [if_neg hv, if_neg hv, hptd1]
  have hmemf : ∀ (l : List I) (x y : I),
      x ∈ l.filter (fun z => decide (z ≠ y)) ↔ x ∈ l ∧ x ≠ y := by
    intro l x y
    rw [List.mem_filter]
    simp
  refine ⟨?_, fun u v => ?_, fun u => ?_⟩
  · show ((updateNode (retainEdgeTo g f t) t _).nodes.map Prod.fst).Nodup
    rw [keys_updateNode, retainEdgeTo, keys_updateNode]
    exact hkeys
  · rw [hptg', hptg1, hptd']
    by_cases hu : u = f <;> by_cases hv : v = t
    · subst hu; subst hv
      rw [if_pos rfl, if_pos rfl]
      refine iff_of_false (fun hx => ?_) (fun hx => ?_)
      · exact ((hmemf _ _ _).mp hx).2 rfl
      · exact ((hmemf _ _ _).mp hx).2 rfl
    · subst hu
      rw [if_pos rfl, if_neg hv, hmemf]
      constructor
      · rintro ⟨hx, _⟩
        exact (hsym u v).mp hx
      · intro hx
        exact ⟨(hsym u v).mpr hx, hv⟩
    · subst hv
      rw [if_neg hu, if_pos rfl, hmemf]
      constructor
      · intro hx
        exact ⟨(hsym u v).mp hx, hu⟩
      · rintro ⟨hx, _⟩
        exact (hsym u v).mpr hx
    · rw [if_neg hu, if_neg hv]
      exact hsym u v
  · rw [hptg', hptg1, hptd']
    constructor
    · by_cases hu : u = f
      · subst hu
        rw [if_pos rfl]
        exact ((hnd _).1).filter _
      · rw [if_neg hu]
        exact (hnd u).1
    · by_cases hu : u = t
      · subst hu
        rw [if_pos rfl]
        exact ((hnd _).2).filter _
      · rw [if_neg hu]
        exact (hnd u).2

theorem inv_remove_node {g g' : Graph I} {i : I} (hinv : Inv g)
    (h : remove_node g i = some g') : Inv g' := by
  obtain ⟨hkeys, hsym, hnd⟩ := hinv
  rw [remove_node] at h
  cases hl : lookup g i with
  | none =>
    rw [hl] at h
    exact Option.noConfusion h
  | some nd =>
    rw [hl] at h
    obtain rfl := Option.some.inj h
    have hptgi : ptg g i = nd.pointing_to := by simp [ptg, hl]
    have hptdi : ptd g i = nd.pointed_to := by simp [ptd, hl]
    have hg2ptg : ∀ u, ptg (purgePointed i nd.pointing_to (purgePointing i nd.pointed_to g)) u =
        if u ∈ nd.pointed_to then (ptg g u).filter (fun x => decide (x ≠ i))
        else ptg g u := by
      intro u
      rw [ptg_purgePointed, ptg_purgePointing]
    have hg2ptd : ∀ u, ptd (purgePointed i nd.pointing_to (purgePointing i nd.pointed_to g)) u =
        if u ∈ nd.pointing_to then (ptd g u).filter (fun x => decide (x ≠ i))
        else ptd g u := by
      intro u
      rw [ptd_purgePointed, ptd_purgePointing]
    have hlook' : ∀ j, lookup (⟨(purgePointed i nd.pointing_to
        (purgePointing i nd.pointed_to g)).nodes.filter fun q => decide (q.1 ≠ i)⟩ :
        Graph I) j =
        if j = i then none
        else lookup (purgePointed i nd.pointing_to (purgePointing i nd.pointed_to g)) j :=
      fun j => lookup_filterOut _ i j
    have hptg' : ∀ u, ptg (⟨(purgePointed i nd.pointing_to
        (purgePointing i nd.pointed_to g)).nodes.filter fun q => decide (q.1 ≠ i)⟩ :
        Graph I) u =
        if u = i then []
        else ptg (purgePointed i nd.pointing_to (purgePointing i nd.pointed_to g)) u := by
      intro u
      rw [ptg, hlook']
      by_cases hu : u = i <;> simp [hu, ptg]
    have hptd' : ∀ u, ptd (⟨(purgePointed i nd.pointing_to
        (purgePointing i nd.pointed_to g)).nodes.filter fun q => decide (q.1 ≠ i)⟩ :
        Graph I) u =
        if u = i then []
        else ptd (purgePointed i nd.pointing_to (purgePointing i nd.pointed_to g)) u := by
      intro u
      rw [ptd, hlook']
      by_cases hu : u = i <;> simp [hu, ptd]
    have hmemf : ∀ (l : List I) (x y : I),
        x ∈ l.filter (fun z => decide (z ≠ y)) ↔ x ∈ l ∧ x ≠ y := by
      intro l x y
      rw [List.mem_filter]
      simp
    refine ⟨?_, fun u v => ?_, fun u => ?_⟩
    · show ((⟨(purgePointed i nd.pointing_to (purgePointing i nd.pointed_to g)).nodes.filter
          fun q => decide (q.1 ≠ i)⟩ : Graph I).nodes.map Prod.fst).Nodup
      rw [keys_filterOut, keys_purgePointed, keys_purgePointing]
      exact hkeys.filter _
    · rw [hptg', hptd', hg2ptg, hg2ptd]
      by_cases hu : u = i <;> by_cases hv : v = i
      · subst hu; subst hv
        simp
      · subst hu
        rw [if_pos rfl, if_neg hv]
        refine iff_of_false (List.not_mem_nil v) ?_
        by_cases hvL : v ∈ nd.pointing_to
        · rw [if_pos hvL, hmemf]
          rintro ⟨_, hne⟩
          exact hne rfl
        · rw [if_neg hvL]
          intro hx
          have := (hsym u v).mpr hx
          rw [hptgi] at this
          exact hvL this
      · subst hv
        rw [if_neg hu, if_pos rfl]
        refine iff_of_false ?_ (List.not_mem_nil u)
        by_cases huL : u ∈ nd.pointed_to
        · rw [if_pos huL, hmemf]
          rintro ⟨_, hne⟩
          exact hne rfl
        · rw [if_neg huL]
          intro hx
          have := (hsym u v).mp hx
          rw [hptdi] at this
          exact huL this
      · rw [if_neg hu, if_neg hv]
        by_cases huL : u ∈ nd.pointed_to <;> by_cases hvL : v ∈ nd.pointing_to
        · rw [if_pos huL, if_pos hvL, hmemf, hmemf]
          constructor
          · rintro ⟨hx, _⟩
            exact ⟨(hsym u v).mp hx, hu⟩
          · rintro ⟨hx, _⟩
            exact ⟨(hsym u v).mpr hx, hv⟩
        · rw [if_pos huL, if_neg hvL, hmemf]
          constructor
          · rintro ⟨hx, _⟩
            exact (hsym u v).mp hx
          · intro hx
            exact ⟨(hsym u v).mpr hx, hv⟩
        · rw [if_neg huL, if_pos hvL, hmemf]
          constructor
          · intro hx
            exact ⟨(hsym u v).mp hx, hu⟩
          · rintro ⟨hx, _⟩
            exact (hsym u v).mpr hx
        · rw [if_neg huL, if_neg hvL]
          exact hsym u v
    · rw [hptg', hptd', hg2ptg, hg2ptd]
      constructor
      · by_cases hu : u = i
        · simp [hu]
        · rw [if_neg hu]
          by_cases huL : u ∈ nd.pointed_to
          · rw [if_pos huL]
            exact (hnd u).1.filter _
          · rw [if_neg huL]
            exact (hnd u).1
      · by_cases hu : u = i
        · simp [hu]
        · rw [if_neg hu]
          by_cases huL : u ∈ nd.pointing_to
          · rw [if_pos huL]
            exact (hnd u).2.filter _
          · rw [if_neg huL]
            exact (hnd u).2

theorem inv_step {g : Graph I} (hinv : Inv g) (op : GOp I) :
    Inv ((step g op).getD g) := by
  cases op with
  | addN i =>
    cases h : add_node g i with
    | none => simpa [step, h] using hinv
    | some g2 =>
      simp only [step, h, Option.getD_some]
      exact inv_add_node hinv h
  | rmN i =>
    cases h : remove_node g i with
    | none => simpa [step, h] using hinv
    | some g2 =>
      simp only [step, h, Option.getD_some]
      exact inv_remove_node hinv h
  | addE f t =>
    cases h : add_edge g f t with
    | none => simpa [step, h] using hinv
    | some g2 =>
      simp only [step, h, Option.getD_some]
      exact inv_add_edge hinv h
  | rmE f t =>
    cases h : remove_edge g f t with
    | none => simpa [step, h] using hinv
    | some g2 =>
      simp only [step, h, Option.getD_some]
      exact inv_remove_edge hinv h

theorem inv_foldl (ops : List (GOp I)) :
    ∀ g : Graph I, Inv g → Inv (ops.foldl (fun g op => (step g op).getD g) g) := by
  induction ops with
  | nil => intro g hg; exact hg
  | cons op ops ih =>
    intro g hg
    rw [List.foldl_cons]
    exact ih _ (inv_step hg op)

theorem inv_run (ops : List (GOp I)) : Inv (run ops) :=
  inv_foldl ops ⟨[]⟩ inv_empty

end GraphModel

section GraphClaims

open GraphModel

/-- Claim C6: starting from the empty graph, after every sequence of
successful `add_node` / `add_edge` / `remove_edge` / `remove_node`
operations, for every pair of node ids `u`, `v`: `v` is in `u`'s
`pointing_to` list iff `u` is in `v`'s `pointed_to` list, and neither
list contains duplicates.  (`run` applies each operation when it
succeeds; on invariant-satisfying states every failing operation in the
source returns its error before mutating, so this models exactly the
sequences of successful operations.) -/
theorem c6_graph_edge_symmetry {I : Type} [DecidableEq I]
    (ops : List (GOp I)) (u v : I) :
    (v ∈ ptg (run ops) u ↔ u ∈ ptd (run ops) v)
    ∧ (ptg (run ops) u).Nodup ∧ (ptd (run ops) u).Nodup := by
  obtain ⟨_, hsym, hnd⟩ := inv_run ops
  exact ⟨hsym u v, (hnd u).1, (hnd u).2⟩

end GraphClaims

namespace EditScript

/-- `Operation` from `src/diff/edit.rs`. -/
inductive Operation
  | insert
  | delete
  | replace
deriving DecidableEq, Repr

/-- `HalfEdit` from `src/diff/edit.rs`: a 0-based line index and the
content lines of one side.  Strings are modelled as `List Char` (all the
parser's index arithmetic happens at character boundaries). -/
structure HalfEdit where
  line : Nat
  content : List (List Char)
deriving DecidableEq, Repr

/-- `Edit` from `src/diff/edit.rs`. -/
structure Edit where
  op : Operation
  original : HalfEdit
  modified : HalfEdit
deriving DecidableEq, Repr

/-- Value reduction of Rust `u64`/`usize` arithmetic. -/
def w64 (n : Nat) : Nat := n % (2 ^ 64)

/-- Wrapping `usize` subtraction (release-build semantics; a debug build
panics on the same underflows).  Defined for `b < 2 ^ 64`. -/
def usize_sub (a b : Nat) : Nat := (a + 2 ^ 64 - b) % (2 ^ 64)

/-- The character of a decimal digit. -/
def digitChar (n : Nat) : Char := Char.ofNat (48 + n)

/-- Decimal rendering of a `usize` (what `format!("{}", n)` emits),
fuel-based so it is structural. -/
def natCharsAux : Nat → Nat → List Char
  | 0, _ => []
  | fuel + 1, n =>
    if n < 10 then [digitChar n]
    else natCharsAux fuel (n / 10) ++ [digitChar (n % 10)]

/-- Decimal rendering of a natural number. -/
def natChars (n : Nat) : List Char := natCharsAux (n + 1) n

/-- Numeric value of a digit string. -/
def digitsVal (l : List Char) : Nat :=
  l.foldl (fun acc c => acc * 10 + (c.toNat - 48)) 0

/-- `str::parse::<usize>`: fails on an empty string, a non-digit, or
overflow past `usize::MAX`. -/
def parseDigits (l : List Char) : Option Nat :=
  if l = [] then none
  else if l.all (fun c => c.isDigit) then
    if digitsVal l < 2 ^ 64 then some (digitsVal l) else none
  else none

/-- The `for (index, c) in input.char_indices()` loop of `read_usize`:
the index of the first non-digit character, `0` when there is none
(exactly as the source leaves `boundary = 0` when the loop never
breaks). -/
def findBoundary : List Char → Nat → Nat
  | [], _ => 0
  | c :: rest, idx => if !c.isDigit then idx else findBoundary rest (idx + 1)

/-- `read_usize` from `src/diff/parser.rs`. -/
def read_usize (input : List Char) : Except String (List Char × Nat) :=
  let boundary := findBoundary input 0
  match parseDigits (input.take boundary) with
  | none => .error "cannot parse integer"
  | some n => .ok (input.drop boundary, n)

/-- The `for (index, c) in input.char_indices()` loop of `read_lines`
(`src/diff/parser.rs`): `idx` is the current index into `input`, `rest`
the remaining characters, `prev` the index just past the last newline.
Returns the final `prev` and the collected lines. -/
def read_lines_go (input : List Char) :
    List Char → Nat → Nat → Nat → Nat → List (List Char) →
      Nat × List (List Char)
  | [], _, _, _, prev, lines => (prev, lines)
  | c :: rest, idx, counted, numLines, prev, lines =>
    if c = '\n' then
      let counted := counted + 1
      let lines := lines ++ [(input.drop prev).take (idx - prev)]
      let prev := idx + 1
      if counted = numLines then (prev, lines)
      else read_lines_go input rest (idx + 1) counted numLines prev lines
    else read_lines_go input rest (idx + 1) counted numLines prev lines

/-- `read_lines` from `src/diff/parser.rs` (its `Result` is always `Ok`
in the source, so the model is total): collect up to `numLines`
newline-terminated lines; if no newline was ever consumed, treat the
whole input as one line. -/
def read_lines (input : List Char) (numLines : Nat) :
    List Char × List (List Char) :=
  let (prev, lines) := read_lines_go input input 0 0 numLines 0 []
  if prev ≠ 0 then (input.drop prev, lines)
  else ([], lines ++ [input])

/-- `skip_sequence` from `src/diff/parser.rs`. -/
def skip_sequence (input seq : List Char) : Except String (List Char) :=
  if seq.isPrefixOf input then .ok (input.drop seq.length)
  else .error "Sequence not found at beginning of input string"

/-- One `line.strip_prefix(tag)` call of `parse_edit_script`. -/
def stripTag (tag : List Char) (line : List Char) : Option (List Char) :=
  if tag.isPrefixOf line then some (line.drop tag.length) else none

/-- The content loops of `parse_edit_script`: strip `tag` from every
line, failing on the first line that lacks it. -/
def stripAll (tag : List Char) : List (List Char) → Option (List (List Char))
  | [] => some []
  | l :: ls =>
    match stripTag tag l with
    | none => none
    | some l2 =>
      match stripAll tag ls with
      | none => none
      | some ls2 => some (l2 :: ls2)

/-- `Edit::to_edit_script` from `src/diff/edit.rs`: the header
`o₁,o₂Xm₁,m₂`, the original lines prefixed `"< "` joined by newlines,
the separator `---`, the modified lines prefixed `"> "` joined by
newlines (format string `"{},{}{}{},{}\nOG\n---\nMOD"`). -/
def to_edit_script (e : Edit) : List Char :=
  let opc : Char :=
    match e.op with
    | .insert => 'a'
    | .delete => 'd'
    | .replace => 'r'
  natChars e.original.line ++ [','] ++
    natChars (usize_sub (w64 (e.original.line + e.original.content.length)) 1) ++
    [opc] ++
    natChars e.modified.line ++ [','] ++
    natChars (usize_sub (w64 (e.modified.line + e.modified.content.length)) 1) ++
    ['\n'] ++
    List.intercalate ['\n'] (e.original.content.map fun line => ['<', ' '] ++ line) ++
    ['\n', '-', '-', '-', '\n'] ++
    List.intercalate ['\n'] (e.modified.content.map fun line => ['>', ' '] ++ line)

/-- `Edit::parse_edit_script` from `src/diff/edit.rs`: parse the header,
the operation character, both line-number pairs, then read
`o₂ - o₁ + 1` original lines and `m₂ - m₁ + 1` modified lines
(wrapping `usize` subtraction) and strip their prefixes. -/
def parse_edit_script (script : List Char) :
    Except String (List Char × Edit) := do
  let (r, og_line_start) ← read_usize script
  let r ← skip_sequence r [',']
  let (r, og_line_end) ← read_usize r
  let (r, op) ←
    match r.head? with
    | none => (.error "No operation" : Except String (List Char × Operation))
    | some c =>
      if c = 'r' then .ok (r.drop 1, Operation.replace)
      else if c = 'a' then .ok (r.drop 1, Operation.insert)
      else if c = 'd' then .ok (r.drop 1, Operation.delete)
      else .error "Invalid Operation"
  let (r, mod_line_start) ← read_usize r
  let r ← skip_sequence r [',']
  let (r, mod_line_end) ← read_usize r
  let r ← skip_sequence r ['\n']
  let (r, og_content_ref) := read_lines r (w64 (usize_sub og_line_end og_line_start + 1))
  let r ← skip_sequence r ['-', '-', '-', '\n']
  let (r, mod_content_ref) := read_lines r (w64 (usize_sub mod_line_end mod_line_start + 1))
  let og_content ←
    match stripAll ['<', ' '] og_content_ref with
    | none => (.error "Content formatted incorrectly" : Except String (List (List Char)))
    | some l => .ok l
  let mod_content ←
    match stripAll ['>', ' '] mod_content_ref with
    | none => (.error "Content formatted incorrectly" : Except String (List (List Char)))
    | some l => .ok l
  .ok (r, ⟨op, ⟨og_line_start, og_content⟩, ⟨mod_line_start, mod_content⟩⟩)

theorem natCharsAux_fuel (n : Nat) : ∀ f1 f2, n < f1 → n < f2 →
    natCharsAux f1 n = natCharsAux f2 n := by
  induction n using Nat.strong_induction_on with
  | _ n ih =>
    intro f1 f2 h1 h2
    cases f1 with
    | zero => exact absurd h1 (Nat.not_lt_zero n)
    | succ f1 =>
      cases f2 with
      | zero => exact absurd h2 (Nat.not_lt_zero n)
      | succ f2 =>
        by_cases hn : n < 10
        · simp [natCharsAux, hn]
        · have hlt : n / 10 < n := Nat.div_lt_self (by omega) (by omega)
          have e1 : n / 10 < f1 := by omega
          have e2 : n / 10 < f2 := by omega
          simp only [natCharsAux, hn, if_false]
          rw [ih (n / 10) hlt f1 f2 e1 e2]

theorem natChars_unfold (n : Nat) :
    natChars n = if n < 10 then [digitChar n]
      else natChars (n / 10) ++ [digitChar (n % 10)] := by
  by_cases hn : n < 10
  · rw [if_pos hn, natChars, natCharsAux, if_pos hn]
  · rw [if_neg hn, natChars, natCharsAux, if_neg hn, natChars]
    congr 1
    exact natCharsAux_fuel (n / 10) n (n / 10 + 1)
      (Nat.div_lt_self (by omega) (by omega)) (Nat.lt_succ_self _)

theorem digitChar_isDigit {n : Nat} (h : n < 10) : (digitChar n).isDigit = true := by
  interval_cases n <;> decide

theorem digitChar_toNat {n : Nat} (h : n < 10) : (digitChar n).toNat = 48 + n := by
  interval_cases n <;> decide

theorem natChars_digits (n : Nat) : ∀ c ∈ natChars n, c.isDigit = true := by
  induction n using Nat.strong_induction_on with
  | _ n ih =>
    intro c hc
    rw [natChars_unfold] at hc
    by_cases hn : n < 10
    · rw [if_pos hn] at hc
      rw [List.mem_singleton.mp hc]
      exact digitChar_isDigit hn
    · rw [if_neg hn] at hc
      rcases List.mem_append.mp hc with h | h
      · exact ih (n / 10) (Nat.div_lt_self (by omega) (by omega)) c h
      · rw [List.mem_singleton.mp h]
        exact digitChar_isDigit (Nat.mod_lt n (by omega))

theorem natChars_ne_nil (n : Nat) : natChars n ≠ [] := by
  rw [natChars_unfold]
  by_cases hn : n < 10 <;> simp [hn]

theorem digitsVal_append (l : List Char) (c : Char) :
    digitsVal (l ++ [c]) = digitsVal l * 10 + (c.toNat - 48) := by
  rw [digitsVal, digitsVal, List.foldl_append]
  rfl

theorem digitsVal_natChars (n : Nat) : digitsVal (natChars n) = n := by
  induction n using Nat.strong_induction_on with
  | _ n ih =>
    rw [natChars_unfold]
    by_cases hn : n < 10
    · rw [if_pos hn]
      show 0 * 10 + ((digitChar n).toNat - 48) = n
      rw [digitChar_toNat hn]
      omega
    · rw [if_neg hn, digitsVal_append,
        ih (n / 10) (Nat.div_lt_self (by omega) (by omega)),
        digitChar_toNat (Nat.mod_lt n (by omega))]
      omega

theorem findBoundary_append (l1 : List Char) (c : Char) (rest : List Char)
    (hl : ∀ x ∈ l1, x.isDigit = true) (hc : c.isDigit = false) :
    ∀ idx, findBoundary (l1 ++ c :: rest) idx = idx + l1.length := by
  induction l1 with
  | nil =>
    intro idx
    show findBoundary (c :: rest) idx = idx
    rw [findBoundary]
    simp [hc]
  | cons x l1 ih =>
    intro idx
    show findBoundary (x :: (l1 ++ c :: rest)) idx = idx + (l1.length + 1)
    rw [findBoundary]
    have hx : x.isDigit = true := hl x (List.mem_cons_self x l1)
    rw [hx]
    show findBoundary (l1 ++ c :: rest) (idx + 1) = idx + (l1.length + 1)
    rw [ih (fun y hy => hl y (List.mem_cons_of_mem x hy)) (idx + 1)]
    omega

theorem read_usize_append {n : Nat} (c : Char) (rest : List Char)
    (hc : c.isDigit = false) (hn : n < 2 ^ 64) :
    read_usize (natChars n ++ c :: rest) = .ok (c :: rest, n) := by
  rw [read_usize]
  have hb : findBoundary (natChars n ++ c :: rest) 0 = (natChars n).length :=
    by simpa using findBoundary_append (natChars n) c rest (natChars_digits n) hc 0
  simp only [hb]
  rw [List.take_left, List.drop_left]
  have hparse : parseDigits (natChars n) = some n := by
    rw [parseDigits, if_neg (natChars_ne_nil n)]
    have hall : (natChars n).all (fun c => c.isDigit) = true := by
      rw [List.all_eq_true]
      exact natChars_digits n
    rw [hall, if_pos rfl, digitsVal_natChars, if_pos hn]
  rw [hparse]

theorem w64_eq {n : Nat} (h : n < 2 ^ 64) : w64 n = n := Nat.mod_eq_of_lt h

theorem usize_sub_of_le {a b : Nat} (hb : b ≤ a) (ha : a < 2 ^ 64) :
    usize_sub a b = a - b := by
  rw [usize_sub]
  have h1 : a + 2 ^ 64 - b = (a - b) + 2 ^ 64 := by omega
  rw [h1, Nat.add_mod_right]
  exact Nat.mod_eq_of_lt (by omega)

theorem read_lines_go_no_nl (rest : List Char) :
    ∀ (input : List Char) (idx counted numLines prev : Nat)
      (lines : List (List Char)),
      (∀ c ∈ rest, c ≠ '\n') →
      read_lines_go input rest idx counted numLines prev lines = (prev, lines) := by
  induction rest with
  | nil => intro input idx counted numLines prev lines _; rfl
  | cons c rest ih =>
    intro input idx counted numLines prev lines hnl
    rw [read_lines_go, if_neg (hnl c (List.mem_cons_self c rest))]
    exact ih input (idx + 1) counted numLines prev lines
      fun x hx => hnl x (List.mem_cons_of_mem c hx)

theorem read_lines_no_nl (input : List Char) (numLines : Nat)
    (h : ∀ c ∈ input, c ≠ '\n') :
    read_lines input numLines = ([], [input]) := by
  rw [read_lines, read_lines_go_no_nl input input 0 0 numLines 0 [] h]
  simp

theorem read_lines_go_line (line : List Char) :
    ∀ (pre rest input : List Char) (counted numLines prev : Nat)
      (lines : List (List Char)),
      (∀ c ∈ line, c ≠ '\n') →
      input.drop prev = pre ++ line ++ '\n' :: rest →
      read_lines_go input (line ++ '\n' :: rest) (prev + pre.length)
          counted numLines prev lines
        = (if counted + 1 = numLines
            then (prev + pre.length + line.length + 1, lines ++ [pre ++ line])
            else read_lines_go input rest (prev + pre.length + line.length + 1)
              (counted + 1) numLines (prev + pre.length + line.length + 1)
              (lines ++ [pre ++ line])) := by
  induction line with
  | nil =>
    intro pre rest input counted numLines prev lines _ hdrop
    show read_lines_go input ('\n' :: rest) (prev + pre.length)
        counted numLines prev lines = _
    rw [read_lines_go, if_pos rfl]
    have hslice : (input.drop prev).take (prev + pre.length - prev) = pre := by
      rw [hdrop]
      have : prev + pre.length - prev = pre.length := by omega
      rw [this]
      simp [List.take_left]
    rw [hslice]
    by_cases hcnt : counted + 1 = numLines
    · rw [if_pos hcnt, if_pos hcnt]
      simp
    · rw [if_neg hcnt, if_neg hcnt]
      simp
  | cons c0 cl ih =>
    intro pre rest input counted numLines prev lines hnl hdrop
    show read_lines_go input (c0 :: (cl ++ '\n' :: rest)) (prev + pre.length)
        counted numLines prev lines = _
    rw [read_lines_go, if_neg (hnl c0 (List.mem_cons_self c0 cl))]
    have hdrop2 : input.drop prev = (pre ++ [c0]) ++ cl ++ '\n' :: rest := by
      rw [hdrop]
      simp
    have := ih (pre ++ [c0]) rest input counted numLines prev lines
      (fun c hc => hnl c (List.mem_cons_of_mem c0 hc)) hdrop2
    have harith : prev + (pre ++ [c0]).length = prev + pre.length + 1 := by
      simp [Nat.add_assoc]
    rw [harith] at this
    rw [this]
    have harith2 : prev + pre.length + 1 + cl.length + 1
        = prev + pre.length + (cl.length + 1) + 1 := by omega
    have hlist : pre ++ [c0] ++ cl = pre ++ c0 :: cl := by simp
    rw [harith2, hlist]
    show _ = if counted + 1 = numLines
      then (prev + pre.length + (c0 :: cl).length + 1, lines ++ [pre ++ c0 :: cl])
      else _
    simp only [List.length_cons]

theorem read_lines_go_all (ls : List (List Char)) :
    ∀ (rest input : List Char) (counted numLines prev : Nat)
      (lines : List (List Char)),
      ls ≠ [] →
      (∀ l ∈ ls, ∀ c ∈ l, c ≠ '\n') →
      input.drop prev = (ls.map fun l => l ++ ['\n']).flatten ++ rest →
      counted + ls.length = numLines →
      read_lines_go input ((ls.map fun l => l ++ ['\n']).flatten ++ rest)
          prev counted numLines prev lines
        = (prev + ((ls.map fun l => l ++ ['\n']).flatten).length, lines ++ ls) := by
  induction ls with
  | nil =>
    intro _ _ _ _ _ _ hne
    exact absurd rfl hne
  | cons l ls ih =>
    intro rest input counted numLines prev lines _ hnl hdrop hcount
    have hflat : ((l :: ls).map fun l => l ++ ['\n']).flatten
        = l ++ '\n' :: ((ls.map fun l => l ++ ['\n']).flatten) := by
      simp
    have hline := read_lines_go_line l []
      ((ls.map fun l => l ++ ['\n']).flatten ++ rest) input counted numLines prev
      lines (hnl l (List.mem_cons_self l ls)) (by rw [hdrop, hflat]; simp)
    simp only [List.length_nil, Nat.add_zero, List.nil_append] at hline
    rw [hflat, List.append_assoc, List.cons_append]
    rw [hline]
    cases ls with
    | nil =>
      have hcnt : counted + 1 = numLines := by simpa using hcount
      rw [if_pos hcnt]
      simp
      omega
    | cons l2 ls2 =>
      have hcnt : counted + 1 ≠ numLines := by
        simp only [List.length_cons] at hcount
        omega
      rw [if_neg hcnt]
      have hdrop3 : input.drop (prev + l.length + 1)
          = ((l2 :: ls2).map fun l => l ++ ['\n']).flatten ++ rest := by
        have : input.drop (prev + l.length + 1)
            = (input.drop prev).drop (l.length + 1) := by
          rw [List.drop_drop, Nat.add_assoc]
        rw [this, hdrop, hflat]
        rw [show (l ++ '\n' :: ((l2 :: ls2).map fun l => l ++ ['\n']).flatten) ++ rest
            = (l ++ ['\n']) ++ (((l2 :: ls2).map fun l => l ++ ['\n']).flatten ++ rest)
          from by simp]
        rw [show l.length + 1 = (l ++ ['\n']).length from by simp]
        exact List.drop_left _ _
      have := ih rest input (counted + 1) numLines (prev + l.length + 1)
        (lines ++ [l]) (by simp)
        (fun x hx => hnl x (List.mem_cons_of_mem l hx))
        hdrop3
        (by simp only [List.length_cons] at hcount ⊢; omega)
      rw [this, Prod.mk.injEq]
      refine ⟨?_, ?_⟩
      · simp
        omega
      · simp

theorem read_lines_exact (ls : List (List Char)) (rest : List Char)
    (hne : ls ≠ []) (hnl : ∀ l ∈ ls, ∀ c ∈ l, c ≠ '\n') :
    read_lines ((ls.map fun l => l ++ ['\n']).flatten ++ rest) ls.length
      = (rest, ls) := by
  rw [read_lines]
  have hgo := read_lines_go_all ls rest
    ((ls.map fun l => l ++ ['\n']).flatten ++ rest) 0 ls.length 0 [] hne hnl
    (by simp) (by simp)
  rw [hgo]
  have hpos : ((ls.map fun l => l ++ ['\n']).flatten).length ≠ 0 := by
    cases ls with
    | nil => exact absurd rfl hne
    | cons l ls => simp
  simp only [Nat.zero_add, ne_eq, hpos, not_false_iff, if_pos]
  rw [List.drop_left]
  simp

theorem skip_sequence_append (seq rest : List Char) :
    skip_sequence (seq ++ rest) seq = .ok rest := by
  rw [skip_sequence]
  have hp : seq.isPrefixOf (seq ++ rest) = true := by
    rw [List.isPrefixOf_iff_prefix]
    exact List.prefix_append seq rest
  rw [if_pos hp, List.drop_left]

theorem stripAll_map (tag : List Char) (ls : List (List Char)) :
    stripAll tag (ls.map fun l => tag ++ l) = some ls := by
  induction ls with
  | nil => rfl
  | cons l ls ih =>
    show stripAll tag ((tag ++ l) :: ls.map fun l => tag ++ l) = some (l :: ls)
    rw [stripAll]
    have hst : stripTag tag (tag ++ l) = some l := by
      rw [stripTag]
      have hp : tag.isPrefixOf (tag ++ l) = true := by
        rw [List.isPrefixOf_iff_prefix]
        exact List.prefix_append tag l
      rw [if_pos hp, List.drop_left]
    rw [hst, ih]

theorem intercalate_nl (c : Char) (ls : List (List Char)) (X : List Char)
    (hne : ls ≠ []) :
    List.intercalate [c] ls ++ c :: X = (ls.map fun l => l ++ [c]).flatten ++ X := by
  induction ls with
  | nil => exact absurd rfl hne
  | cons l ls ih =>
    cases ls with
    | nil => simp [List.intercalate]
    | cons l2 ls2 =>
      have hmain := ih (by simp)
      have hstep : List.intercalate [c] (l :: l2 :: ls2)
          = l ++ [c] ++ List.intercalate [c] (l2 :: ls2) := by
        rw [List.intercalate, List.intercalate]
        simp
      rw [hstep, List.append_assoc, List.append_assoc, hmain]
      simp

end EditScript

deriving instance DecidableEq for Except

namespace EditScript

theorem bind_ok {α β : Type} (a : α) (f : α → Except String β) :
    (Except.ok a >>= f) = f a := rfl

end EditScript

section EditScriptClaims

open EditScript

/-- Claim C7 (counterexample): the claimed round trip
`parse_edit_script (to_edit_script e) = (e, no remaining input)` fails
for a `Replace` edit with a two-line modified half (a shape the Myers
engine produces, e.g. in the repository's own cactus test): the
serializer does not newline-terminate the last modified line, so the
parser returns only the first modified line and leaves `"> y"`
unconsumed. -/
theorem c7_edit_script_roundtrip_cex :
    parse_edit_script (to_edit_script ⟨.replace, ⟨0, [['a']]⟩, ⟨0, [['x'], ['y']]⟩⟩)
      ≠ Except.ok ([], ⟨.replace, ⟨0, [['a']]⟩, ⟨0, [['x'], ['y']]⟩⟩)
    ∧ parse_edit_script (to_edit_script ⟨.replace, ⟨0, [['a']]⟩, ⟨0, [['x'], ['y']]⟩⟩)
      = Except.ok (['>', ' ', 'y'], ⟨.replace, ⟨0, [['a']]⟩, ⟨0, [['x']]⟩⟩) := by
  refine ⟨?_, ?_⟩ <;> decide

/-- Claim C7 (amended): the round trip holds for a `Replace` edit whose
modified half has exactly one line — original half nonempty with
newline-free lines, modified half a single newline-free line, and the
header arithmetic within `usize` range.  (`Insert` and `Delete` edits
underflow `content.len() - 1` during serialization, and any edit with
two or more modified lines loses its last line on parsing, as the
counterexample shows.) -/
theorem c7_edit_script_roundtrip (l1 l2 : Nat) (og : List (List Char)) (m : List Char)
    (hog : og ≠ []) (hognl : ∀ l ∈ og, ∀ c ∈ l, c ≠ '\n')
    (hmnl : ∀ c ∈ m, c ≠ '\n')
    (hl1 : l1 + og.length < 2 ^ 64) (hl2 : l2 + 1 < 2 ^ 64) :
    parse_edit_script (to_edit_script ⟨.replace, ⟨l1, og⟩, ⟨l2, [m]⟩⟩)
      = Except.ok ([], ⟨.replace, ⟨l1, og⟩, ⟨l2, [m]⟩⟩) := by
  have hoglen : 1 ≤ og.length := List.length_pos.mpr hog
  have h1 : w64 (l1 + og.length) = l1 + og.length := w64_eq hl1
  have h2 : usize_sub (l1 + og.length) 1 = l1 + og.length - 1 :=
    usize_sub_of_le (by omega) hl1
  have h3 : w64 (l2 + 1) = l2 + 1 := w64_eq hl2
  have h4 : usize_sub (l2 + 1) 1 = l2 := by
    rw [usize_sub_of_le (by omega) hl2]
    omega
  have hshape : to_edit_script ⟨.replace, ⟨l1, og⟩, ⟨l2, [m]⟩⟩
      = natChars l1 ++ ',' :: (natChars (l1 + og.length - 1) ++ 'r' ::
        (natChars l2 ++ ',' :: (natChars l2 ++ '\n' ::
        (((og.map fun line => '<' :: ' ' :: line).map fun l => l ++ ['\n']).flatten ++
          ('-' :: '-' :: '-' :: '\n' :: ('>' :: ' ' :: m)))))) := by
    rw [to_edit_script]
    show natChars l1 ++ [','] ++
        natChars (usize_sub (w64 (l1 + og.length)) 1) ++ ['r'] ++
        natChars l2 ++ [','] ++ natChars (usize_sub (w64 (l2 + 1)) 1) ++ ['\n'] ++
        List.intercalate ['\n'] (og.map fun line => ['<', ' '] ++ line) ++
        ['\n', '-', '-', '-', '\n'] ++
        List.intercalate ['\n'] ([m].map fun line => ['>', ' '] ++ line) = _
    rw [h1, h2, h3, h4]
    have hmod : List.intercalate ['\n'] ([m].map fun line => ['>', ' '] ++ line)
        = '>' :: ' ' :: m := by
      simp [List.intercalate]
    rw [hmod]
    have hogi := intercalate_nl '\n' (og.map fun line => '<' :: ' ' :: line)
      ('-' :: '-' :: '-' :: '\n' :: ('>' :: ' ' :: m)) (by simp [hog])
    simp only [List.append_assoc, List.cons_append, List.singleton_append,
      List.nil_append]
    rw [hogi]
  have hskc : ∀ R : List Char, skip_sequence (',' :: R) [','] = .ok R := fun R =>
    skip_sequence_append [','] R
  have hsknl : ∀ R : List Char, skip_sequence ('\n' :: R) ['\n'] = .ok R := fun R =>
    skip_sequence_append ['\n'] R
  have hskdash : ∀ R : List Char,
      skip_sequence ('-' :: '-' :: '-' :: '\n' :: R) ['-', '-', '-', '\n'] = .ok R :=
    fun R => skip_sequence_append ['-', '-', '-', '\n'] R
  have hd1 : (','.isDigit) = false := by decide
  have hd2 : ('r'.isDigit) = false := by decide
  have hd3 : ('\n'.isDigit) = false := by decide
  have ha1 : l1 < 2 ^ 64 := by omega
  have ha2 : l1 + og.length - 1 < 2 ^ 64 := by omega
  have ha3 : l2 < 2 ^ 64 := by omega
  have hcount1 : w64 (usize_sub (l1 + og.length - 1) l1 + 1) = og.length := by
    rw [usize_sub_of_le (by omega) (by omega), w64_eq (by omega)]
    omega
  have hcount2 : w64 (usize_sub l2 l2 + 1) = 1 := by
    rw [usize_sub_of_le (by omega) (by omega), w64_eq (by omega)]
    omega
  have hmaplen : (og.map fun line => '<' :: ' ' :: line).length = og.length := by
    simp
  have hpfxnl : ∀ l ∈ og.map fun line => '<' :: ' ' :: line, ∀ c ∈ l, c ≠ '\n' := by
    intro l hl c hcl
    rcases List.mem_map.mp hl with ⟨l0, hl0, rfl⟩
    rcases List.mem_cons.mp hcl with rfl | hcl
    · decide
    · rcases List.mem_cons.mp hcl with rfl | hcl
      · decide
      · exact hognl l0 hl0 c hcl
  have hrl1 := read_lines_exact (og.map fun line => '<' :: ' ' :: line)
    ('-' :: '-' :: '-' :: '\n' :: ('>' :: ' ' :: m)) (by simp [hog]) hpfxnl
  rw [hmaplen] at hrl1
  have hmnl2 : ∀ c ∈ ('>' :: ' ' :: m), c ≠ '\n' := by
    intro c hc
    rcases List.mem_cons.mp hc with rfl | hc
    · decide
    · rcases List.mem_cons.mp hc with rfl | hc
      · decide
      · exact hmnl c hc
  have hrl2 := read_lines_no_nl ('>' :: ' ' :: m) 1 hmnl2
  have hstrip1 : stripAll ['<', ' '] (og.map fun line => '<' :: ' ' :: line)
      = some og := stripAll_map ['<', ' '] og
  have hstrip2 : stripAll ['>', ' '] ['>' :: ' ' :: m] = some [m] :=
    stripAll_map ['>', ' '] [m]
  rw [hshape]
  simp only [parse_edit_script, read_usize_append, hd1, hd2, hd3, ha1, ha2, ha3,
    bind_ok, hskc, hsknl, hskdash, List.head?_cons, List.drop_succ_cons,
    List.drop_zero, hcount1, hcount2, hrl1, hrl2, hstrip1, hstrip2,
    if_true, reduceIte]


/-- Witness for the amended C7: a concrete two-line-original,
one-line-modified `Replace` edit round trips; every hypothesis is
discharged by `decide`. -/
theorem c7_edit_script_roundtrip_witness :
    parse_edit_script (to_edit_script ⟨.replace, ⟨1, [['a'], ['b']]⟩, ⟨2, [['x']]⟩⟩)
      = Except.ok ([], ⟨.replace, ⟨1, [['a'], ['b']]⟩, ⟨2, [['x']]⟩⟩) :=
  c7_edit_script_roundtrip 1 2 [['a'], ['b']] ['x'] (by decide) (by decide)
    (by decide) (by decide) (by decide)

end EditScriptClaims
